import Mathlib

/-!
Verification of the module-orchestrator kernel (src/src/Kernel.cpp,
src/unnamed/part_000 = kernel/Kernel.hpp).

The embedding is a shallow one:

* A C++ `Kernel::Module*` is modelled as a `Module` value carrying an
  identity tag `mid` (standing for the object address) and its `name`.
* `createGraph` builds, exactly as the source does, a name → module map and
  a module → vertex map with last-insertion-wins semantics
  (`std::unordered_map` assignment), and then an adjacency structure: the
  vertex of each dependency gets the vertex of the dependent appended to
  its adjacency list.  Vertices are represented by their index in the
  module vector, which is faithful because the source reserves the vector
  up front so vertex pointers are stable.
* The Kahn-style loop in `sort` is modelled by `kahnLoop`.  The source
  iterates a `std::unordered_set` whose iteration order is unspecified;
  the embedding fixes the deterministic choice "first inserted first"
  (the initial ready set in ascending index order, later insertions
  appended).  Fuel makes the recursion structural; `sortIdx` supplies
  fuel that provably suffices (`kahnLoop_ready_nil`).
* The controlling thread of `Kernel::start` blocks until the worker leaves
  `STARTING`, so the observable effect of `start` is determined by the
  worker prefix up to the store of `RUNNING` (or the revert to `IDLE`);
  `start` models exactly that prefix, recording `init` calls as events.
  The full worker execution (init phase, `passes` complete tick passes,
  halt phase in reverse) is modelled by `workerRun`.
-/

set_option maxHeartbeats 1000000

namespace Kernel

/-- A registered module: `mid` stands for the C++ object identity
(pointer), `name` for `Module::_name`. -/
structure Module where
  mid : Nat
  name : String
  deriving DecidableEq, Repr

/-- `Kernel::Status`. -/
inductive Status where
  | IDLE
  | STARTING
  | RUNNING
  deriving DecidableEq, Repr

/-- The element type of `KernelImpl::modulesAndDependencies`. -/
abbrev ModDeps := List (Module × List String)

/-- Lookup in an assignment sequence with last-assignment-wins semantics,
modelling repeated `std::unordered_map` subscript assignment followed by
`find`. -/
def lookupLast {α β : Type} [DecidableEq α] : List (α × β) → α → Option β
  | [], _ => none
  | (k, v) :: rest, key =>
    match lookupLast rest key with
    | some w => some w
    | none => if k = key then some v else none

/-- The assignments performed on `moduleMap` in `createGraph`'s first
loop, in order. -/
def modulePairs (mad : ModDeps) : List (String × Module) :=
  mad.map fun p => (p.1.name, p.1)

/-- The assignments performed on `vertexMap` in `createGraph`'s first
loop: each module is mapped to the index of its vertex. -/
def vertexPairs : Nat → ModDeps → List (Module × Nat)
  | _, [] => []
  | i, p :: rest => (p.1, i) :: vertexPairs (i + 1) rest

/-- `moduleMap.find(name)`. -/
def moduleMapLookup (mad : ModDeps) (name : String) : Option Module :=
  lookupLast (modulePairs mad) name

/-- `vertexMap.find(module)`. -/
def vertexMapLookup (mad : ModDeps) (m : Module) : Option Nat :=
  lookupLast (vertexPairs 0 mad) m

/-- The inner loop of `createGraph`'s second pass: resolve each declared
dependency name of the vertex `vi` and append `vi` to the resolved
dependency's adjacency list; an unresolved name aborts the construction.
The `vertexMapLookup` failure case cannot occur on the inputs the source
feeds it (the resolved module is always registered); the source
dereferences the iterator unconditionally there. -/
def addDeps (mad : ModDeps) (vi : Nat) :
    List String → List (List Nat) → Option (List (List Nat))
  | [], adj => some adj
  | name :: rest, adj =>
    match moduleMapLookup mad name with
    | none => none
    | some dm =>
      match vertexMapLookup mad dm with
      | none => none
      | some di => addDeps mad vi rest (adj.set di (adj.getD di [] ++ [vi]))

/-- The outer loop of `createGraph`'s second pass over all registered
modules. -/
def addAllDeps (mad : ModDeps) :
    List (Module × List String) → List (List Nat) → Option (List (List Nat))
  | [], adj => some adj
  | (m, names) :: rest, adj =>
    match vertexMapLookup mad m with
    | none => none
    | some vi =>
      match addDeps mad vi names adj with
      | none => none
      | some adj2 => addAllDeps mad rest adj2

/-- `createGraph`: adjacency lists by vertex index (vertex `i` is the
module of the `i`-th registered entry), or `none` when a dependency name
does not resolve. -/
def createGraph (mad : ModDeps) : Option (List (List Nat)) :=
  addAllDeps mad mad (mad.map fun _ => [])

/-- The `goto`-exited scan of `sort`: does vertex `i` still occur in any
adjacency list? -/
def stillReferenced (adj : List (List Nat)) (i : Nat) : Bool :=
  adj.any fun l => l.contains i

/-- One popped vertex's adjacency list being folded back into the ready
set: an adjacent vertex is inserted when no adjacency list still
references it; insertion into the `std::unordered_set` is a no-op for a
vertex already in the ready set. -/
def insertReady (adj : List (List Nat)) : List Nat → List Nat → List Nat
  | [], ready => ready
  | m :: rest, ready =>
    if stillReferenced adj m || ready.contains m then insertReady adj rest ready
    else insertReady adj rest (ready ++ [m])

/-- The main loop of `sort`: pop a ready vertex, append it to the output,
clear its adjacency list, and re-insert newly unreferenced adjacent
vertices.  Fuel only makes the recursion structural: `sortIdx` passes
fuel that provably reaches the empty ready set. -/
def kahnLoop : Nat → List (List Nat) → List Nat → List Nat →
    List (List Nat) × List Nat × List Nat
  | 0, adj, ready, out => (adj, ready, out)
  | _ + 1, adj, [], out => (adj, [], out)
  | fuel + 1, adj, v :: rest, out =>
    kahnLoop fuel (adj.set v [])
      (insertReady (adj.set v []) (adj.getD v []) rest) (out ++ [v])

/-- Total number of edges left in the adjacency structure. -/
def sumLen (adj : List (List Nat)) : Nat := (adj.map List.length).sum

/-- The initial ready set of `sort`: every vertex, minus every vertex that
occurs as an edge target. -/
def initialReady (adj : List (List Nat)) : List Nat :=
  (List.range adj.length).filter fun i => !stillReferenced adj i

/-- Final state of the Kahn loop.  The fuel `sumLen adj + length` of the
initial ready set is enough for the loop to run until the ready set is
empty (`kahnLoop_ready_nil`), which is the loop condition of the
source. -/
def sortIdxRes (adj : List (List Nat)) : List (List Nat) × List Nat × List Nat :=
  kahnLoop (sumLen adj + (initialReady adj).length) adj (initialReady adj) []

/-- The index-level part of `sort`: run the Kahn loop, then fail if any
adjacency list is left non-empty (cycle), else return the computed
order. -/
def sortIdx (adj : List (List Nat)) : Option (List Nat) :=
  if (sortIdxRes adj).1.all List.isEmpty then some (sortIdxRes adj).2.2 else none

/-- Placeholder module used only to give `List.getD` a default; every
index it is applied to is proved in range. -/
def defaultModule : Module := ⟨0, ""⟩

def defaultEntry : Module × List String := (defaultModule, [])

/-- `sort` of Kernel.cpp: build the graph, run the Kahn loop, map vertex
indices back to modules. -/
def sort (mad : ModDeps) : Option (List Module) :=
  match createGraph mad with
  | none => none
  | some adj =>
    match sortIdx adj with
    | none => none
    | some out => some (out.map fun i => (mad.getD i defaultEntry).1)

/-- A lifecycle hook invocation, in the order the worker performs them. -/
inductive Event where
  | init (m : Module)
  | tick (m : Module)
  | halt (m : Module)
  deriving DecidableEq, Repr

/-- The kernel state visible to the controller: the shared status word,
the two parallel registry vectors of `KernelImpl`, and the log of hook
invocations performed so far. -/
structure KernelState where
  status : Status
  modules : List Module
  modulesAndDependencies : ModDeps
  events : List Event
  deriving DecidableEq, Repr

/-- `Kernel::find`: first registered module with the given name. -/
def find (k : KernelState) (name : String) : Option Module :=
  k.modules.find? fun m => m.name == name

/-- `Kernel::add`. -/
def add (k : KernelState) (m : Module) (deps : List String) : KernelState × Bool :=
  if k.status ≠ Status.IDLE then (k, false)
  else if (find k m.name).isSome then (k, false)
  else
    ({ k with
        modules := k.modules ++ [m],
        modulesAndDependencies := k.modulesAndDependencies ++ [(m, deps)] },
      true)

/-- Swap-with-back removal at index `i`, as performed on both registry
vectors by `Kernel::remove`. -/
def swapRemove {α : Type} (l : List α) (i : Nat) (d : α) : List α :=
  (l.set i (l.getLastD d)).dropLast

/-- The scan of `Kernel::remove` over the modules vector: index of the
first module with the given name. -/
def findRemoveIdx (name : String) : List Module → Option Nat
  | [] => none
  | m :: rest =>
    if m.name == name then some 0
    else (findRemoveIdx name rest).map (· + 1)

/-- `Kernel::remove`: refuse while not idle; otherwise swap-remove the
first module with the given name from both vectors — the dependency
vector only when its entry at that index agrees on the name (else the
source logs an internal inconsistency and leaves it alone). -/
def remove (k : KernelState) (name : String) : KernelState × Option Module :=
  if k.status ≠ Status.IDLE then (k, none)
  else
    match findRemoveIdx name k.modules with
    | none => (k, none)
    | some i =>
      let mad :=
        if (k.modulesAndDependencies.getD i defaultEntry).1.name == name then
          swapRemove k.modulesAndDependencies i defaultEntry
        else k.modulesAndDependencies
      ({ k with
          modules := swapRemove k.modules i defaultModule,
          modulesAndDependencies := mad },
        some (k.modules.getD i defaultModule))

/-- `Kernel::start` as observed by the controller, which blocks until the
worker leaves `STARTING`: on sort failure the worker stores `IDLE` and
start returns false with no hook called; on success the worker has
called `init` on every module in sorted order and stored `RUNNING`. -/
def start (k : KernelState) : KernelState × Bool :=
  match sort k.modulesAndDependencies with
  | none => ({ k with status := Status.IDLE }, false)
  | some order =>
    ({ k with
        status := Status.RUNNING,
        events := k.events ++ order.map Event.init },
      true)

/-- `Kernel::stop`. -/
def stop (k : KernelState) : KernelState := { k with status := Status.IDLE }

/-- `Kernel::status`. -/
def status (k : KernelState) : Status := k.status

/-- Projection of an event log to the modules `init` was called on. -/
def initsOf (evs : List Event) : List Module :=
  evs.filterMap fun e => match e with | Event.init m => some m | _ => none

/-- Projection of an event log to the modules `halt` was called on. -/
def haltsOf (evs : List Event) : List Module :=
  evs.filterMap fun e => match e with | Event.halt m => some m | _ => none

/-- The complete hook-invocation trace of one `KernelImpl::start` worker
execution that performed `passes` full tick passes before observing the
stop request: init in sorted order, the tick passes, then halt in
reverse sorted order.  A failed sort calls no hook. -/
def workerRun (mad : ModDeps) (passes : Nat) : List Event :=
  match sort mad with
  | none => []
  | some order =>
    order.map Event.init
      ++ (List.replicate passes (order.map Event.tick)).flatten
      ++ order.reverse.map Event.halt

/-- `i` reaches `j` in exactly `n` steps along adjacency edges. -/
def reachesIn (adj : List (List Nat)) : Nat → Nat → Nat → Bool
  | 0, i, j => i == j
  | k + 1, i, j => (adj.getD i []).any fun m => reachesIn adj k m j

/-- The adjacency structure contains a directed cycle (some vertex
reaches itself in between 1 and `adj.length` steps; any cycle can be
shortened to one of such a length). -/
def hasCycleB (adj : List (List Nat)) : Bool :=
  (List.range adj.length).any fun i =>
    (List.range adj.length).any fun k => reachesIn adj (k + 1) i i

/-- First vertex whose adjacency list still references `i` (0 when none
does); used to walk backwards through blocked vertices when extracting a
cycle from a failed sort. -/
def predIdx (adjF : List (List Nat)) (i : Nat) : Nat :=
  ((List.range adjF.length).find? fun k => (adjF.getD k []).contains i).getD 0

/-- Iterated `predIdx`, the backward walk itself. -/
def descend (adjF : List (List Nat)) (start : Nat) : Nat → Nat
  | 0 => start
  | d + 1 => predIdx adjF (descend adjF start d)

/-- Keep the first occurrence of every element, dropping elements already
seen. -/
def firstDedupAux {α : Type} [DecidableEq α] (seen : List α) : List α → List α
  | [] => []
  | a :: l =>
    if a ∈ seen then firstDedupAux seen l else a :: firstDedupAux (a :: seen) l

def firstDedup {α : Type} [DecidableEq α] (l : List α) : List α :=
  firstDedupAux [] l

/-- Two adjacency structures are equivalent for the Kahn loop when they
have the same length and their lists agree up to duplicate entries
(equal first-occurrence dedups). -/
def fdEquiv (adj1 adj2 : List (List Nat)) : Prop :=
  adj1.length = adj2.length ∧
  ∀ i : Nat, firstDedup (adj1.getD i []) = firstDedup (adj2.getD i [])

/-- `fdEquiv` lifted to the optional results of graph construction. -/
def OptFdEquiv (o1 o2 : Option (List (List Nat))) : Prop :=
  (o1 = none ∧ o2 = none) ∨
  ∃ a1 a2, o1 = some a1 ∧ o2 = some a2 ∧ fdEquiv a1 a2

/-- The two parallel registry vectors of `KernelImpl` agree: same length
and the same module at every index. -/
def Consistent (k : KernelState) : Prop :=
  k.modules = k.modulesAndDependencies.map Prod.fst

/-- `x` occurs strictly before `y` in `l` (at the given positions). -/
def precedes {α : Type} (l : List α) (x y : α) : Prop :=
  ∃ p q : Nat, p < q ∧ l[p]? = some x ∧ l[q]? = some y

/-! ### Helper lemmas: sumLen, stillReferenced, insertReady -/

lemma sumLen_cons (l : List Nat) (rest : List (List Nat)) :
    sumLen (l :: rest) = l.length + sumLen rest := by
  simp [sumLen]

lemma sumLen_set_nil (adj : List (List Nat)) (v : Nat) :
    sumLen (adj.set v []) + (adj.getD v []).length = sumLen adj := by
  induction adj generalizing v with
  | nil => simp [sumLen]
  | cons l rest ih =>
    cases v with
    | zero => simp [sumLen_cons]; omega
    | succ w =>
      have h := ih w
      simp only [List.set_cons_succ, sumLen_cons, List.getD_cons_succ]
      omega

lemma stillReferenced_iff (adj : List (List Nat)) (i : Nat) :
    stillReferenced adj i = true ↔ ∃ l ∈ adj, i ∈ l := by
  simp [stillReferenced]

lemma stillReferenced_pos (adj : List (List Nat)) (i : Nat) :
    stillReferenced adj i = true ↔
      ∃ (k : Nat) (l : List Nat), adj[k]? = some l ∧ i ∈ l := by
  rw [stillReferenced_iff]
  constructor
  · rintro ⟨l, hl, hi⟩
    obtain ⟨k, hk⟩ := List.mem_iff_getElem?.mp hl
    exact ⟨k, l, hk, hi⟩
  · rintro ⟨k, l, hk, hi⟩
    exact ⟨l, List.getElem?_mem hk, hi⟩

lemma stillReferenced_of_getD_mem (adj : List (List Nat)) (v i : Nat)
    (hv : v < adj.length) (h : i ∈ adj.getD v []) : stillReferenced adj i = true := by
  rw [stillReferenced_pos]
  refine ⟨v, adj.getD v [], ?_, h⟩
  rw [List.getD_eq_getElem?_getD, List.getElem?_eq_getElem hv]
  rfl

lemma stillReferenced_of_set (adj : List (List Nat)) (v i : Nat)
    (h : stillReferenced (adj.set v []) i = true) : stillReferenced adj i = true := by
  rw [stillReferenced_pos] at h ⊢
  obtain ⟨k, l, hk, hi⟩ := h
  by_cases hkv : v = k
  · subst hkv
    rw [List.getElem?_set] at hk
    by_cases hvl : v < adj.length
    · simp [hvl] at hk
      subst hk; cases hi
    · simp [hvl] at hk
  · rw [List.getElem?_set_ne hkv] at hk
    exact ⟨k, l, hk, hi⟩

lemma mem_getD_of_ref_of_set (adj : List (List Nat)) (v i : Nat)
    (h : stillReferenced adj i = true)
    (h2 : stillReferenced (adj.set v []) i = false) : i ∈ adj.getD v [] := by
  rw [stillReferenced_pos] at h
  obtain ⟨k, l, hk, hi⟩ := h
  by_cases hkv : v = k
  · subst hkv
    rw [List.getD_eq_getElem?_getD, hk]
    exact hi
  · exfalso
    have : stillReferenced (adj.set v []) i = true := by
      rw [stillReferenced_pos]
      exact ⟨k, l, by rw [List.getElem?_set_ne hkv]; exact hk, hi⟩
    rw [this] at h2; cases h2

lemma insertReady_length_le (adj : List (List Nat)) (a r : List Nat) :
    (insertReady adj a r).length ≤ r.length + a.length := by
  induction a generalizing r with
  | nil => simp [insertReady]
  | cons m rest ih =>
    simp only [insertReady]
    split
    · have := ih r; simp only [List.length_cons]; omega
    · have := ih (r ++ [m]); simp only [List.length_append, List.length_singleton,
        List.length_cons, List.length_nil] at this ⊢; omega

lemma mem_insertReady (adj : List (List Nat)) (a r : List Nat) (x : Nat) :
    x ∈ insertReady adj a r ↔
      x ∈ r ∨ (x ∈ a ∧ stillReferenced adj x = false) := by
  induction a generalizing r with
  | nil => simp [insertReady]
  | cons m rest ih =>
    simp only [insertReady]
    split
    case isTrue hc =>
      rw [ih]
      simp only [List.mem_cons]
      constructor
      · rintro (h | ⟨h1, h2⟩)
        · exact Or.inl h
        · exact Or.inr ⟨Or.inr h1, h2⟩
      · rintro (h | ⟨h1 | h1, h2⟩)
        · exact Or.inl h
        · subst h1
          rcases Bool.or_eq_true_iff.mp hc with hr | hm
          · rw [hr] at h2; cases h2
          · exact Or.inl (by simpa using hm)
        · exact Or.inr ⟨h1, h2⟩
    case isFalse hc =>
      rw [ih]
      have hc2 : stillReferenced adj m = false ∧ m ∉ r := by
        constructor
        · cases hsr : stillReferenced adj m
          · rfl
          · exact absurd (by rw [hsr]; simp) hc
        · intro hm
          exact hc (by simp [hm])
      simp only [List.mem_append, List.mem_cons, List.not_mem_nil, or_false]
      constructor
      · rintro ((h | h) | ⟨h1, h2⟩)
        · exact Or.inl h
        · subst h; exact Or.inr ⟨Or.inl rfl, hc2.1⟩
        · exact Or.inr ⟨Or.inr h1, h2⟩
      · rintro (h | ⟨h1 | h1, h2⟩)
        · exact Or.inl (Or.inl h)
        · subst h1; exact Or.inl (Or.inr rfl)
        · exact Or.inr ⟨h1, h2⟩


lemma insertReady_nodup (adj : List (List Nat)) (a r : List Nat)
    (h : r.Nodup) : (insertReady adj a r).Nodup := by
  induction a generalizing r with
  | nil => simpa [insertReady]
  | cons m rest ih =>
    simp only [insertReady]
    split
    case isTrue hc => exact ih r h
    case isFalse hc =>
      refine ih (r ++ [m]) ?_
      have hm : m ∉ r := fun hm => hc (by simp [hm])
      simp [List.nodup_append, h, hm, List.Disjoint]
      intro x hx hxm
      subst hxm
      exact hm hx

lemma getD_eq_nil_of_le (l : List (List Nat)) (i : Nat) (h : l.length ≤ i) :
    l.getD i [] = [] := by
  rw [List.getD_eq_getElem?_getD, List.getElem?_eq_none h]
  rfl

lemma lt_length_of_getD_mem (l : List (List Nat)) (i j : Nat)
    (h : j ∈ l.getD i []) : i < l.length := by
  by_contra hc
  rw [getD_eq_nil_of_le l i (by omega)] at h
  cases h

lemma getD_set_self (adj : List (List Nat)) (v : Nat) (hv : v < adj.length) :
    (adj.set v []).getD v [] = [] := by
  rw [List.getD_eq_getElem?_getD, List.getElem?_set_self hv]
  rfl

lemma getD_set_ne (adj : List (List Nat)) (v i : Nat) (h : v ≠ i) :
    (adj.set v []).getD i [] = adj.getD i [] := by
  rw [List.getD_eq_getElem?_getD, List.getD_eq_getElem?_getD,
    List.getElem?_set_ne h]

lemma stillReferenced_set_false_of_false (adj : List (List Nat)) (v x : Nat)
    (h : stillReferenced adj x = false) :
    stillReferenced (adj.set v []) x = false := by
  cases h2 : stillReferenced (adj.set v []) x with
  | false => rfl
  | true => rw [stillReferenced_of_set adj v x h2] at h; cases h

/-! ### The Kahn loop invariant -/

/-- Invariant of `kahnLoop` relative to the initial adjacency structure
`adj0`: the current adjacency lists are either the original ones
(unpopped vertices) or cleared (popped vertices); the ready set and the
output are disjoint duplicate-free collections of valid vertices; every
valid vertex is ready, popped, or still the target of a remaining edge;
ready and popped vertices have no remaining incoming edge; and the
output is topologically ordered so far. -/
structure KInv (adj0 adj : List (List Nat)) (ready out : List Nat) : Prop where
  len : adj.length = adj0.length
  unpopped : ∀ i : Nat, i ∉ out → adj.getD i [] = adj0.getD i []
  popped : ∀ i : Nat, i ∈ out → adj.getD i [] = []
  out_nodup : out.Nodup
  ready_nodup : ready.Nodup
  ready_out : ∀ v ∈ ready, v ∉ out
  ready_lt : ∀ v ∈ ready, v < adj0.length
  out_lt : ∀ v ∈ out, v < adj0.length
  covered : ∀ i : Nat, i < adj0.length →
    i ∈ ready ∨ i ∈ out ∨ stillReferenced adj i = true
  ready_unref : ∀ v ∈ ready, stillReferenced adj v = false
  out_unref : ∀ v ∈ out, stillReferenced adj v = false
  topo : ∀ i j : Nat, j ∈ adj0.getD i [] → j ∈ out → precedes out i j

lemma KInv_init (adj0 : List (List Nat)) :
    KInv adj0 adj0 (initialReady adj0) [] := by
  constructor
  · rfl
  · intro i _; rfl
  · intro i h; cases h
  · exact List.nodup_nil
  · exact (List.nodup_range _).filter _
  · intro v _ h; cases h
  · intro v hv
    rw [initialReady, List.mem_filter, List.mem_range] at hv
    exact hv.1
  · intro v hv; cases hv
  · intro i hi
    by_cases h : stillReferenced adj0 i = true
    · exact Or.inr (Or.inr h)
    · refine Or.inl ?_
      rw [initialReady, List.mem_filter, List.mem_range]
      exact ⟨hi, by simp [Bool.eq_false_iff.mpr h]⟩
  · intro v hv
    rw [initialReady, List.mem_filter] at hv
    simpa using hv.2
  · intro v hv; cases hv
  · intro i j _ hj; cases hj

lemma KInv_step (adj0 adj : List (List Nat)) (v : Nat) (rest out : List Nat)
    (hwf : ∀ i j : Nat, j ∈ adj0.getD i [] → j < adj0.length)
    (inv : KInv adj0 adj (v :: rest) out) :
    KInv adj0 (adj.set v [])
      (insertReady (adj.set v []) (adj.getD v []) rest) (out ++ [v]) := by
  have hv : v < adj0.length := inv.ready_lt v (List.mem_cons_self v rest)
  have hvlen : v < adj.length := by rw [inv.len]; exact hv
  have hvout : v ∉ out := inv.ready_out v (List.mem_cons_self v rest)
  have hvrest : v ∉ rest := by
    have := inv.ready_nodup
    rw [List.nodup_cons] at this
    exact this.1
  have hvunref : stillReferenced adj v = false :=
    inv.ready_unref v (List.mem_cons_self v rest)
  have hva : adj.getD v [] = adj0.getD v [] := inv.unpopped v hvout
  have hmema : ∀ x ∈ adj.getD v [], stillReferenced adj x = true := by
    intro x hx
    exact stillReferenced_of_getD_mem adj v x hvlen hx
  have hvnota : v ∉ adj.getD v [] := by
    intro hx
    rw [hmema v hx] at hvunref; cases hvunref
  constructor
  · rw [List.length_set]; exact inv.len
  · intro i hi
    simp only [List.mem_append, List.mem_singleton, not_or] at hi
    rw [getD_set_ne adj v i (fun he => hi.2 he.symm)]
    exact inv.unpopped i hi.1
  · intro i hi
    simp only [List.mem_append, List.mem_singleton] at hi
    rcases hi with hi | hi
    · have hne : v ≠ i := fun he => hvout (he ▸ hi)
      rw [getD_set_ne adj v i hne]
      exact inv.popped i hi
    · rw [hi]
      exact getD_set_self adj v hvlen
  · rw [List.nodup_append]
    refine ⟨inv.out_nodup, List.nodup_singleton v, ?_⟩
    intro x hx hy
    rw [List.mem_singleton] at hy
    rw [hy] at hx
    exact hvout hx
  · exact insertReady_nodup _ _ _ (by
      have := inv.ready_nodup
      rw [List.nodup_cons] at this
      exact this.2)
  · intro x hx
    rw [mem_insertReady] at hx
    simp only [List.mem_append, List.mem_singleton, not_or]
    rcases hx with hx | ⟨hxa, hxunref⟩
    · exact ⟨inv.ready_out x (List.mem_cons_of_mem v hx),
        fun he => hvrest (he ▸ hx)⟩
    · refine ⟨fun hxo => ?_, fun he => hvnota (he ▸ hxa)⟩
      have h1 := hmema x hxa
      rw [inv.out_unref x hxo] at h1
      cases h1
  · intro x hx
    rw [mem_insertReady] at hx
    rcases hx with hx | ⟨hxa, _⟩
    · exact inv.ready_lt x (List.mem_cons_of_mem v hx)
    · rw [hva] at hxa
      exact hwf v x hxa
  · intro x hx
    simp only [List.mem_append, List.mem_singleton] at hx
    rcases hx with hx | hx
    · exact inv.out_lt x hx
    · rw [hx]; exact hv
  · intro i hi
    by_cases hr : i ∈ insertReady (adj.set v []) (adj.getD v []) rest
    · exact Or.inl hr
    by_cases ho : i ∈ out ++ [v]
    · exact Or.inr (Or.inl ho)
    simp only [List.mem_append, List.mem_singleton, not_or] at ho
    refine Or.inr (Or.inr ?_)
    rcases inv.covered i hi with hc | hc | hc
    · rcases List.mem_cons.mp hc with hc | hc
      · exact absurd hc ho.2
      · exact absurd ((mem_insertReady _ _ _ _).mpr (Or.inl hc)) hr
    · exact absurd hc ho.1
    · cases h2 : stillReferenced (adj.set v []) i with
      | true => rfl
      | false =>
        exfalso
        have hia : i ∈ adj.getD v [] := mem_getD_of_ref_of_set adj v i hc h2
        exact hr ((mem_insertReady _ _ _ _).mpr (Or.inr ⟨hia, h2⟩))
  · intro x hx
    rw [mem_insertReady] at hx
    rcases hx with hx | ⟨_, hxunref⟩
    · exact stillReferenced_set_false_of_false adj v x
        (inv.ready_unref x (List.mem_cons_of_mem v hx))
    · exact hxunref
  · intro x hx
    simp only [List.mem_append, List.mem_singleton] at hx
    rcases hx with hx | hx
    · exact stillReferenced_set_false_of_false adj v x (inv.out_unref x hx)
    · rw [hx]
      exact stillReferenced_set_false_of_false adj v v hvunref
  · intro i j hj hjo
    simp only [List.mem_append, List.mem_singleton] at hjo
    rcases hjo with hjo | hjo
    · obtain ⟨p, q, hpq, hp, hq⟩ := inv.topo i j hj hjo
      have hql : q < out.length := (List.getElem?_eq_some_iff.mp hq).1
      have hpl : p < out.length := lt_trans hpq hql
      exact ⟨p, q, hpq, by rw [List.getElem?_append_left hpl]; exact hp,
        by rw [List.getElem?_append_left hql]; exact hq⟩
    · rw [hjo] at hj ⊢
      have hilen0 : i < adj0.length := lt_length_of_getD_mem adj0 i v hj
      have hio : i ∈ out := by
        by_contra hion
        have hilen : i < adj.length := by rw [inv.len]; exact hilen0
        have hmem : v ∈ adj.getD i [] := by rw [inv.unpopped i hion]; exact hj
        rw [stillReferenced_of_getD_mem adj i v hilen hmem] at hvunref
        cases hvunref
      obtain ⟨p, hp⟩ := List.mem_iff_getElem?.mp hio
      have hpl : p < out.length := (List.getElem?_eq_some_iff.mp hp).1
      exact ⟨p, out.length, hpl,
        by rw [List.getElem?_append_left hpl]; exact hp,
        List.getElem?_concat_length out v⟩

lemma kahnLoop_inv (adj0 : List (List Nat))
    (hwf : ∀ i j : Nat, j ∈ adj0.getD i [] → j < adj0.length) (fuel : Nat) :
    ∀ (adj : List (List Nat)) (ready out : List Nat), KInv adj0 adj ready out →
      KInv adj0 (kahnLoop fuel adj ready out).1 (kahnLoop fuel adj ready out).2.1
        (kahnLoop fuel adj ready out).2.2 := by
  induction fuel with
  | zero => intro adj ready out inv; exact inv
  | succ f ih =>
    intro adj ready out inv
    cases ready with
    | nil => exact inv
    | cons v rest =>
      show KInv adj0 (kahnLoop f _ _ _).1 (kahnLoop f _ _ _).2.1 (kahnLoop f _ _ _).2.2
      exact ih _ _ _ (KInv_step adj0 adj v rest out hwf inv)

lemma kahnLoop_nil (fuel : Nat) (adj : List (List Nat)) (out : List Nat) :
    kahnLoop fuel adj [] out = (adj, [], out) := by
  cases fuel with
  | zero => rfl
  | succ f => rfl

lemma kahnLoop_ready_nil (fuel : Nat) :
    ∀ (adj : List (List Nat)) (ready out : List Nat),
      sumLen adj + ready.length ≤ fuel →
      (kahnLoop fuel adj ready out).2.1 = [] := by
  induction fuel with
  | zero =>
    intro adj ready out h
    have : ready.length = 0 := by omega
    rw [List.length_eq_zero.mp this]
    rw [kahnLoop_nil]
  | succ f ih =>
    intro adj ready out h
    cases ready with
    | nil => rw [kahnLoop_nil]
    | cons v rest =>
      show (kahnLoop f (adj.set v []) _ (out ++ [v])).2.1 = []
      apply ih
      have h1 := sumLen_set_nil adj v
      have h2 := insertReady_length_le (adj.set v []) (adj.getD v []) rest
      simp only [List.length_cons] at h
      omega

lemma kahnLoop_add_fuel (k : Nat) : ∀ (fuel : Nat),
    ∀ (adj : List (List Nat)) (ready out : List Nat),
      sumLen adj + ready.length ≤ fuel →
      kahnLoop (fuel + k) adj ready out = kahnLoop fuel adj ready out := by
  intro fuel
  induction fuel with
  | zero =>
    intro adj ready out h
    have : ready.length = 0 := by omega
    rw [List.length_eq_zero.mp this]
    rw [kahnLoop_nil, kahnLoop_nil]
  | succ f ih =>
    intro adj ready out h
    cases ready with
    | nil => rw [kahnLoop_nil, kahnLoop_nil]
    | cons v rest =>
      have hstep : f + 1 + k = (f + k) + 1 := by omega
      rw [hstep]
      show kahnLoop (f + k) (adj.set v []) _ (out ++ [v])
          = kahnLoop f (adj.set v []) _ (out ++ [v])
      apply ih
      have h1 := sumLen_set_nil adj v
      have h2 := insertReady_length_le (adj.set v []) (adj.getD v []) rest
      simp only [List.length_cons] at h
      omega

/-- The final invariant of the loop as run by `sortIdx`, together with
the fact that the loop terminated with an empty ready set. -/
lemma sortIdxRes_inv (adj0 : List (List Nat))
    (hwf : ∀ i j : Nat, j ∈ adj0.getD i [] → j < adj0.length) :
    KInv adj0 (sortIdxRes adj0).1 (sortIdxRes adj0).2.1 (sortIdxRes adj0).2.2 ∧
      (sortIdxRes adj0).2.1 = [] := by
  constructor
  · exact kahnLoop_inv adj0 hwf _ _ _ _ (KInv_init adj0)
  · exact kahnLoop_ready_nil _ _ _ _ le_rfl

lemma sortIdx_sound (adj0 : List (List Nat)) (out : List Nat)
    (hwf : ∀ i j : Nat, j ∈ adj0.getD i [] → j < adj0.length)
    (hs : sortIdx adj0 = some out) :
    out.Nodup ∧ (∀ i : Nat, i ∈ out ↔ i < adj0.length) ∧
      ∀ i j : Nat, j ∈ adj0.getD i [] → precedes out i j := by
  obtain ⟨inv, hready⟩ := sortIdxRes_inv adj0 hwf
  rw [sortIdx] at hs
  split at hs
  case isFalse => cases hs
  case isTrue hempty =>
    rw [Option.some.injEq] at hs
    subst hs
    have hnoref : ∀ x : Nat, stillReferenced (sortIdxRes adj0).1 x = false := by
      intro x
      cases h2 : stillReferenced (sortIdxRes adj0).1 x with
      | false => rfl
      | true =>
        rw [stillReferenced_iff] at h2
        obtain ⟨l, hl, hx⟩ := h2
        rw [List.all_eq_true] at hempty
        have := hempty l hl
        rw [List.isEmpty_iff.mp this] at hx
        cases hx
    have hmem : ∀ i : Nat, i ∈ (sortIdxRes adj0).2.2 ↔ i < adj0.length := by
      intro i
      constructor
      · exact inv.out_lt i
      · intro hi
        rcases inv.covered i hi with hc | hc | hc
        · rw [hready] at hc; cases hc
        · exact hc
        · rw [hnoref i] at hc; cases hc
    refine ⟨inv.out_nodup, hmem, ?_⟩
    intro i j hj
    have hjlt : j < adj0.length := hwf i j hj
    exact inv.topo i j hj ((hmem j).mpr hjlt)

lemma precedes_trans {α : Type} (l : List α) (h : l.Nodup) {x y z : α}
    (h1 : precedes l x y) (h2 : precedes l y z) : precedes l x z := by
  obtain ⟨p1, q1, hpq1, hp1, hq1⟩ := h1
  obtain ⟨p2, q2, hpq2, hp2, hq2⟩ := h2
  have hq1l : q1 < l.length := (List.getElem?_eq_some_iff.mp hq1).1
  have heq : q1 = p2 := List.getElem?_inj hq1l h (hq1.trans hp2.symm)
  exact ⟨p1, q2, by omega, hp1, hq2⟩

lemma reach_precedes (adj0 : List (List Nat)) (out : List Nat)
    (htopo : ∀ i j : Nat, j ∈ adj0.getD i [] → precedes out i j)
    (hnd : out.Nodup) :
    ∀ k i j : Nat, reachesIn adj0 (k + 1) i j = true → precedes out i j := by
  intro k
  induction k with
  | zero =>
    intro i j h
    rw [reachesIn, List.any_eq_true] at h
    obtain ⟨m, hm, hr⟩ := h
    rw [reachesIn] at hr
    have : m = j := by simpa using hr
    rw [this] at hm
    exact htopo i j hm
  | succ kk ih =>
    intro i j h
    rw [reachesIn, List.any_eq_true] at h
    obtain ⟨m, hm, hr⟩ := h
    exact precedes_trans out hnd (htopo i m hm) (ih m j hr)

/-- A successful sort certifies the graph acyclic. -/
lemma sortIdx_acyclic (adj0 : List (List Nat)) (out : List Nat)
    (hwf : ∀ i j : Nat, j ∈ adj0.getD i [] → j < adj0.length)
    (hs : sortIdx adj0 = some out) : hasCycleB adj0 = false := by
  obtain ⟨hnd, _, htopo⟩ := sortIdx_sound adj0 out hwf hs
  cases hc : hasCycleB adj0 with
  | false => rfl
  | true =>
    exfalso
    rw [hasCycleB, List.any_eq_true] at hc
    obtain ⟨i, _, hc⟩ := hc
    rw [List.any_eq_true] at hc
    obtain ⟨k, _, hc⟩ := hc
    obtain ⟨p, q, hpq, hp1, hq1⟩ := reach_precedes adj0 out htopo hnd k i i hc
    have hpl : p < out.length := (List.getElem?_eq_some_iff.mp hp1).1
    have : p = q := List.getElem?_inj hpl hnd (hp1.trans hq1.symm)
    omega

/-- An acyclic graph is sorted successfully: a failed sort leaves a
non-empty adjacency list, from which a backward walk through blocked
vertices and the pigeonhole principle extract a cycle. -/
lemma sortIdx_complete (adj0 : List (List Nat))
    (hwf : ∀ i j : Nat, j ∈ adj0.getD i [] → j < adj0.length)
    (hacyc : hasCycleB adj0 = false) : ∃ out, sortIdx adj0 = some out := by
  cases hs : sortIdx adj0 with
  | some out => exact ⟨out, rfl⟩
  | none =>
    exfalso
    obtain ⟨inv, hready⟩ := sortIdxRes_inv adj0 hwf
    rw [sortIdx] at hs
    split at hs
    case isTrue h => cases hs
    case isFalse hne =>
    have hex : ∃ l ∈ (sortIdxRes adj0).1, l ≠ [] := by
      by_contra hall
      push_neg at hall
      apply hne
      rw [List.all_eq_true]
      intro l hl
      rw [List.isEmpty_iff]
      exact hall l hl
    obtain ⟨l0, hl0mem, hl0ne⟩ := hex
    obtain ⟨k0, hk0⟩ := List.mem_iff_getElem?.mp hl0mem
    have hk0len : k0 < (sortIdxRes adj0).1.length :=
      (List.getElem?_eq_some_iff.mp hk0).1
    have hk0n : k0 < adj0.length := by rw [← inv.len]; exact hk0len
    have hgetD : (sortIdxRes adj0).1.getD k0 [] = l0 := by
      rw [List.getD_eq_getElem?_getD, hk0]; rfl
    have hk0out : k0 ∉ (sortIdxRes adj0).2.2 := fun ho =>
      hl0ne (by rw [← hgetD]; exact inv.popped k0 ho)
    have hpred : ∀ i : Nat, i < adj0.length → i ∉ (sortIdxRes adj0).2.2 →
        predIdx (sortIdxRes adj0).1 i < adj0.length ∧
          predIdx (sortIdxRes adj0).1 i ∉ (sortIdxRes adj0).2.2 ∧
          i ∈ adj0.getD (predIdx (sortIdxRes adj0).1 i) [] := by
      intro i hi hio
      have href : stillReferenced (sortIdxRes adj0).1 i = true := by
        rcases inv.covered i hi with hc | hc | hc
        · rw [hready] at hc; cases hc
        · exact absurd hc hio
        · exact hc
      rw [stillReferenced_pos] at href
      obtain ⟨k, l, hk, hil⟩ := href
      have hklen : k < (sortIdxRes adj0).1.length :=
        (List.getElem?_eq_some_iff.mp hk).1
      have hsome : (((List.range (sortIdxRes adj0).1.length).find? fun j =>
          ((sortIdxRes adj0).1.getD j []).contains i)).isSome = true := by
        rw [List.find?_isSome]
        refine ⟨k, List.mem_range.mpr hklen, ?_⟩
        have : (sortIdxRes adj0).1.getD k [] = l := by
          rw [List.getD_eq_getElem?_getD, hk]; rfl
        rw [this]
        simpa using hil
      obtain ⟨k1, hk1⟩ := Option.isSome_iff_exists.mp hsome
      have hk1prop := List.find?_some hk1
      have hk1mem := List.mem_of_find?_eq_some hk1
      rw [List.mem_range] at hk1mem
      have hk1n : k1 < adj0.length := by rw [← inv.len]; exact hk1mem
      have hpi : predIdx (sortIdxRes adj0).1 i = k1 := by
        rw [predIdx, hk1]; rfl
      have hik1 : i ∈ (sortIdxRes adj0).1.getD k1 [] := by
        have := hk1prop
        simpa using this
      have hk1out : k1 ∉ (sortIdxRes adj0).2.2 := by
        intro ho
        rw [inv.popped k1 ho] at hik1
        cases hik1
      rw [hpi]
      refine ⟨hk1n, hk1out, ?_⟩
      rw [← inv.unpopped k1 hk1out]
      exact hik1
    have hfB : ∀ m : Nat, descend (sortIdxRes adj0).1 k0 m < adj0.length ∧
        descend (sortIdxRes adj0).1 k0 m ∉ (sortIdxRes adj0).2.2 := by
      intro m
      induction m with
      | zero => exact ⟨hk0n, hk0out⟩
      | succ mm ihm =>
        have h := hpred _ ihm.1 ihm.2
        exact ⟨h.1, h.2.1⟩
    have hedge : ∀ m : Nat, descend (sortIdxRes adj0).1 k0 m ∈
        adj0.getD (descend (sortIdxRes adj0).1 k0 (m + 1)) [] := by
      intro m
      exact (hpred _ (hfB m).1 (hfB m).2).2.2
    have hreach : ∀ d base : Nat,
        reachesIn adj0 d (descend (sortIdxRes adj0).1 k0 (base + d))
          (descend (sortIdxRes adj0).1 k0 base) = true := by
      intro d
      induction d with
      | zero => intro base; simp [reachesIn]
      | succ dd ihd =>
        intro base
        rw [reachesIn, List.any_eq_true]
        exact ⟨descend (sortIdxRes adj0).1 k0 (base + dd), hedge (base + dd),
          ihd base⟩
    have hcycle : ∀ a b : Nat, a < b → b < adj0.length + 1 →
        descend (sortIdxRes adj0).1 k0 a = descend (sortIdxRes adj0).1 k0 b →
        False := by
      intro a b hab hbn hfab
      have hr := hreach (b - a) a
      rw [Nat.add_sub_cancel' (le_of_lt hab)] at hr
      rw [← hfab] at hr
      have hd : b - a = (b - a - 1) + 1 := by omega
      rw [hd] at hr
      have hcyc : hasCycleB adj0 = true := by
        rw [hasCycleB, List.any_eq_true]
        refine ⟨descend (sortIdxRes adj0).1 k0 a, List.mem_range.mpr (hfB a).1, ?_⟩
        rw [List.any_eq_true]
        exact ⟨b - a - 1, List.mem_range.mpr (by omega), hr⟩
      rw [hcyc] at hacyc
      cases hacyc
    obtain ⟨x, hx, y, hy, hxy, hfeq⟩ :=
      Finset.exists_ne_map_eq_of_card_lt_of_maps_to
        (s := Finset.range (adj0.length + 1)) (t := Finset.range adj0.length)
        (by simp) (fun a _ => Finset.mem_range.mpr (hfB a).1)
    rw [Finset.mem_range] at hx hy
    rcases Nat.lt_or_ge x y with hlt | hge
    · exact hcycle x y hlt hy hfeq
    · have hlt2 : y < x := by omega
      exact hcycle y x hlt2 hx hfeq.symm

/-! ### Lookup-map lemmas -/

lemma lookupLast_cons_some {α β : Type} [DecidableEq α] {rest : List (α × β)}
    {key : α} {w : β} (k1 : α) (v1 : β) (h : lookupLast rest key = some w) :
    lookupLast ((k1, v1) :: rest) key = some w := by
  rw [lookupLast, h]

lemma lookupLast_cons_none {α β : Type} [DecidableEq α] {rest : List (α × β)}
    {key : α} (k1 : α) (v1 : β) (h : lookupLast rest key = none) :
    lookupLast ((k1, v1) :: rest) key =
      if k1 = key then some v1 else none := by
  rw [lookupLast, h]

lemma lookupLast_mem {α β : Type} [DecidableEq α] (l : List (α × β)) (k : α) (v : β)
    (h : lookupLast l k = some v) : (k, v) ∈ l := by
  induction l with
  | nil => cases h
  | cons p rest ih =>
    obtain ⟨k1, v1⟩ := p
    cases hrest : lookupLast rest k with
    | some w =>
      rw [lookupLast_cons_some k1 v1 hrest, Option.some.injEq] at h
      rw [h] at hrest
      exact List.mem_cons_of_mem _ (ih hrest)
    | none =>
      rw [lookupLast_cons_none k1 v1 hrest] at h
      by_cases he : k1 = k
      · rw [if_pos he, Option.some.injEq] at h
        rw [← h, ← he]
        exact List.mem_cons_self _ _
      · rw [if_neg he] at h
        cases h

lemma lookupLast_none_iff {α β : Type} [DecidableEq α] (l : List (α × β)) (k : α) :
    lookupLast l k = none ↔ k ∉ l.map Prod.fst := by
  induction l with
  | nil => simp [lookupLast]
  | cons p rest ih =>
    obtain ⟨k1, v1⟩ := p
    simp only [List.map_cons, List.mem_cons, not_or]
    cases hrest : lookupLast rest k with
    | some w =>
      rw [lookupLast_cons_some k1 v1 hrest]
      constructor
      · intro h; cases h
      · rintro ⟨_, h2⟩
        rw [ih.mpr h2] at hrest
        cases hrest
    | none =>
      rw [lookupLast_cons_none k1 v1 hrest]
      by_cases he : k1 = k
      · rw [if_pos he]
        constructor
        · intro h; cases h
        · rintro ⟨h1, _⟩; exact absurd he.symm h1
      · rw [if_neg he]
        constructor
        · intro _; exact ⟨fun hc => he hc.symm, ih.mp hrest⟩
        · intro _; rfl

lemma lookupLast_isSome_iff {α β : Type} [DecidableEq α] (l : List (α × β)) (k : α) :
    (lookupLast l k).isSome = true ↔ k ∈ l.map Prod.fst := by
  cases h : lookupLast l k with
  | none =>
    simp only [Option.isSome_none]
    rw [lookupLast_none_iff] at h
    simp [h]
  | some v =>
    simp only [Option.isSome_some, true_iff]
    have := lookupLast_mem l k v h
    exact List.mem_map.mpr ⟨(k, v), this, rfl⟩

lemma lookupLast_eq_of_nodup {α β : Type} [DecidableEq α] (l : List (α × β))
    (hnd : (l.map Prod.fst).Nodup) (k : α) (v : β) (hm : (k, v) ∈ l) :
    lookupLast l k = some v := by
  induction l with
  | nil => cases hm
  | cons p rest ih =>
    obtain ⟨k1, v1⟩ := p
    simp only [List.map_cons, List.nodup_cons] at hnd
    rcases List.mem_cons.mp hm with hm1 | hm1
    · rw [Prod.mk.injEq] at hm1
      have hknotin : k ∉ rest.map Prod.fst := by rw [hm1.1]; exact hnd.1
      have hnone : lookupLast rest k = none :=
        (lookupLast_none_iff rest k).mpr hknotin
      rw [lookupLast_cons_none k1 v1 hnone, if_pos hm1.1.symm, hm1.2]
    · rw [lookupLast_cons_some k1 v1 (ih hnd.2 hm1)]

lemma vertexPairs_fst (mad : ModDeps) : ∀ s : Nat,
    (vertexPairs s mad).map Prod.fst = mad.map Prod.fst := by
  induction mad with
  | nil => intro s; rfl
  | cons p rest ih =>
    intro s
    rw [vertexPairs, List.map_cons, List.map_cons, ih (s + 1)]

lemma vertexPairs_snd_lt (mad : ModDeps) : ∀ (s : Nat) (m : Module) (j : Nat),
    (m, j) ∈ vertexPairs s mad → s ≤ j ∧ j < s + mad.length := by
  induction mad with
  | nil => intro s m j h; cases h
  | cons p rest ih =>
    intro s m j h
    rw [vertexPairs] at h
    rcases List.mem_cons.mp h with h | h
    · rw [Prod.mk.injEq] at h
      simp only [List.length_cons]
      omega
    · have := ih (s + 1) m j h
      simp only [List.length_cons]
      omega

lemma vertexPairs_mem_of_getElem (mad : ModDeps) : ∀ (i s : Nat)
    (p : Module × List String), mad[i]? = some p →
    (p.1, s + i) ∈ vertexPairs s mad := by
  induction mad with
  | nil => intro i s p h; cases h
  | cons q rest ih =>
    intro i s p h
    cases i with
    | zero =>
      rw [List.getElem?_cons_zero, Option.some.injEq] at h
      rw [h, vertexPairs]
      exact List.mem_cons_self _ _
    | succ ii =>
      rw [List.getElem?_cons_succ] at h
      have := ih ii (s + 1) p h
      rw [vertexPairs]
      refine List.mem_cons_of_mem _ ?_
      have harith : s + 1 + ii = s + (ii + 1) := by omega
      rw [← harith]
      exact this

lemma vertexMapLookup_lt (mad : ModDeps) (m : Module) (i : Nat)
    (h : vertexMapLookup mad m = some i) : i < mad.length := by
  have := lookupLast_mem _ _ _ h
  have h2 := vertexPairs_snd_lt mad 0 m i this
  omega

lemma modulePairs_fst (mad : ModDeps) :
    (modulePairs mad).map Prod.fst = mad.map fun p => p.1.name := by
  rw [modulePairs, List.map_map]
  rfl

lemma moduleMapLookup_none_iff (mad : ModDeps) (name : String) :
    moduleMapLookup mad name = none ↔ name ∉ mad.map fun p => p.1.name := by
  rw [moduleMapLookup, lookupLast_none_iff, modulePairs_fst]

lemma moduleMapLookup_isSome_iff (mad : ModDeps) (name : String) :
    (moduleMapLookup mad name).isSome = true ↔
      name ∈ mad.map fun p => p.1.name := by
  rw [moduleMapLookup, lookupLast_isSome_iff, modulePairs_fst]

lemma moduleMapLookup_mem_fst (mad : ModDeps) (name : String) (dm : Module)
    (h : moduleMapLookup mad name = some dm) : dm ∈ mad.map Prod.fst := by
  have := lookupLast_mem _ _ _ h
  rw [modulePairs] at this
  obtain ⟨p, hp, he⟩ := List.mem_map.mp this
  rw [Prod.mk.injEq] at he
  exact List.mem_map.mpr ⟨p, hp, he.2⟩

lemma vertexMapLookup_isSome (mad : ModDeps) (m : Module)
    (h : m ∈ mad.map Prod.fst) : (vertexMapLookup mad m).isSome = true := by
  rw [vertexMapLookup, lookupLast_isSome_iff, vertexPairs_fst]
  exact h

/-- With duplicate-free module names the name map sends each registered
name to its module. -/
lemma moduleMapLookup_of_nodup (mad : ModDeps)
    (hnd : (mad.map fun p => p.1.name).Nodup) (i : Nat) (p : Module × List String)
    (h : mad[i]? = some p) : moduleMapLookup mad p.1.name = some p.1 := by
  rw [moduleMapLookup]
  apply lookupLast_eq_of_nodup
  · rw [modulePairs_fst]; exact hnd
  · rw [modulePairs]
    exact List.mem_map.mpr ⟨p, List.getElem?_mem h, rfl⟩

/-- With duplicate-free module names the vertex map sends each registered
module to its own index. -/
lemma vertexMapLookup_of_nodup (mad : ModDeps)
    (hnd : (mad.map fun p => p.1.name).Nodup) (i : Nat) (p : Module × List String)
    (h : mad[i]? = some p) : vertexMapLookup mad p.1 = some i := by
  have hmodnd : (mad.map Prod.fst).Nodup := by
    have : (mad.map fun q => q.1.name) = (mad.map Prod.fst).map Module.name := by
      rw [List.map_map]; rfl
    rw [this] at hnd
    exact hnd.of_map
  rw [vertexMapLookup]
  apply lookupLast_eq_of_nodup
  · rw [vertexPairs_fst]; exact hmodnd
  · have := vertexPairs_mem_of_getElem mad i 0 p h
    simpa using this

/-! ### Graph-construction lemmas -/

lemma getD_set_self_val (adj : List (List Nat)) (v : Nat) (x : List Nat)
    (hv : v < adj.length) : (adj.set v x).getD v [] = x := by
  rw [List.getD_eq_getElem?_getD, List.getElem?_set_self hv]
  rfl

lemma getD_set_ne_val (adj : List (List Nat)) (v i : Nat) (x : List Nat)
    (h : v ≠ i) : (adj.set v x).getD i [] = adj.getD i [] := by
  rw [List.getD_eq_getElem?_getD, List.getD_eq_getElem?_getD,
    List.getElem?_set_ne h]

lemma mem_getD_set (adj : List (List Nat)) (di i : Nat) (x : List Nat) (j : Nat)
    (h : j ∈ (adj.set di x).getD i []) : j ∈ adj.getD i [] ∨ j ∈ x := by
  by_cases hdi : di = i
  · rw [← hdi] at h ⊢
    by_cases hlen : di < adj.length
    · rw [getD_set_self_val adj di x hlen] at h
      exact Or.inr h
    · rw [List.set_eq_of_length_le (by omega)] at h
      exact Or.inl h
  · rw [getD_set_ne_val adj di i x hdi] at h
    exact Or.inl h

lemma mem_getD_set_of_mem (adj : List (List Nat)) (di i : Nat) (x : List Nat)
    (j : Nat) (hsub : adj.getD di [] ⊆ x) (h : j ∈ adj.getD i []) :
    j ∈ (adj.set di x).getD i [] := by
  by_cases hdi : di = i
  · rw [← hdi] at h ⊢
    by_cases hlen : di < adj.length
    · rw [getD_set_self_val adj di x hlen]
      exact hsub h
    · rw [List.set_eq_of_length_le (by omega)]
      exact h
  · rw [getD_set_ne_val adj di i x hdi]
    exact h

lemma getD_map_nil (mad : ModDeps) : ∀ i : Nat,
    (mad.map fun _ => ([] : List Nat)).getD i [] = [] := by
  induction mad with
  | nil => intro i; rfl
  | cons p rest ih =>
    intro i
    cases i with
    | zero => rfl
    | succ ii => exact ih ii

lemma addDeps_length (mad : ModDeps) (vi : Nat) :
    ∀ (names : List String) (adj adj2 : List (List Nat)),
      addDeps mad vi names adj = some adj2 → adj2.length = adj.length := by
  intro names
  induction names with
  | nil =>
    intro adj adj2 h
    rw [addDeps, Option.some.injEq] at h
    rw [← h]
  | cons name rest ih =>
    intro adj adj2 h
    cases h1 : moduleMapLookup mad name with
    | none =>
      simp only [addDeps, h1] at h
      exact Option.noConfusion h
    | some dm =>
      cases h2 : vertexMapLookup mad dm with
      | none =>
        simp only [addDeps, h1, h2] at h
        exact Option.noConfusion h
      | some di =>
        simp only [addDeps, h1, h2] at h
        have := ih _ _ h
        rw [this, List.length_set]

lemma addDeps_mono (mad : ModDeps) (vi : Nat) :
    ∀ (names : List String) (adj adj2 : List (List Nat)),
      addDeps mad vi names adj = some adj2 →
      ∀ i x : Nat, x ∈ adj.getD i [] → x ∈ adj2.getD i [] := by
  intro names
  induction names with
  | nil =>
    intro adj adj2 h i x hx
    rw [addDeps, Option.some.injEq] at h
    rw [← h]
    exact hx
  | cons name rest ih =>
    intro adj adj2 h i x hx
    cases h1 : moduleMapLookup mad name with
    | none =>
      simp only [addDeps, h1] at h
      exact Option.noConfusion h
    | some dm =>
      cases h2 : vertexMapLookup mad dm with
      | none =>
        simp only [addDeps, h1, h2] at h
        exact Option.noConfusion h
      | some di =>
        simp only [addDeps, h1, h2] at h
        refine ih _ _ h i x ?_
        exact mem_getD_set_of_mem adj di i _ x
          (fun y hy => List.mem_append_left _ hy) hx

lemma addDeps_wf (mad : ModDeps) (vi : Nat) (hvi : vi < mad.length) :
    ∀ (names : List String) (adj adj2 : List (List Nat)),
      addDeps mad vi names adj = some adj2 →
      (∀ i j : Nat, j ∈ adj.getD i [] → j < mad.length) →
      ∀ i j : Nat, j ∈ adj2.getD i [] → j < mad.length := by
  intro names
  induction names with
  | nil =>
    intro adj adj2 h hadj i j hj
    rw [addDeps, Option.some.injEq] at h
    rw [← h] at hj
    exact hadj i j hj
  | cons name rest ih =>
    intro adj adj2 h hadj i j hj
    cases h1 : moduleMapLookup mad name with
    | none =>
      simp only [addDeps, h1] at h
      exact Option.noConfusion h
    | some dm =>
      cases h2 : vertexMapLookup mad dm with
      | none =>
        simp only [addDeps, h1, h2] at h
        exact Option.noConfusion h
      | some di =>
        simp only [addDeps, h1, h2] at h
        refine ih _ _ h ?_ i j hj
        intro i2 j2 hj2
        rcases mem_getD_set adj di i2 _ j2 hj2 with hc | hc
        · exact hadj i2 j2 hc
        · rcases List.mem_append.mp hc with hc | hc
          · exact hadj di j2 hc
          · rw [List.mem_singleton.mp hc]
            exact hvi

lemma addDeps_mem (mad : ModDeps) (vi : Nat) :
    ∀ (names : List String) (adj adj2 : List (List Nat)) (name : String)
      (dm : Module) (di : Nat),
      addDeps mad vi names adj = some adj2 → name ∈ names →
      moduleMapLookup mad name = some dm → vertexMapLookup mad dm = some di →
      di < adj.length → vi ∈ adj2.getD di [] := by
  intro names
  induction names with
  | nil => intro adj adj2 name dm di h hmem; cases hmem
  | cons name1 rest ih =>
    intro adj adj2 name dm di h hmem hdm hdi hlen
    cases h1 : moduleMapLookup mad name1 with
    | none =>
      simp only [addDeps, h1] at h
      exact Option.noConfusion h
    | some dm1 =>
      cases h2 : vertexMapLookup mad dm1 with
      | none =>
        simp only [addDeps, h1, h2] at h
        exact Option.noConfusion h
      | some di1 =>
        simp only [addDeps, h1, h2] at h
        rcases List.mem_cons.mp hmem with hm | hm
        · rw [hm] at hdm
          rw [hdm] at h1
          rw [Option.some.injEq] at h1
          rw [← h1] at h2
          rw [hdi] at h2
          rw [Option.some.injEq] at h2
          rw [h2]
          refine addDeps_mono mad vi rest _ adj2 h di1 vi ?_
          rw [getD_set_self_val adj di1 _ (h2 ▸ hlen)]
          exact List.mem_append_right _ (List.mem_singleton.mpr rfl)
        · refine ih _ _ name dm di h hm hdm hdi ?_
          rw [List.length_set]
          exact hlen

lemma addDeps_resolves (mad : ModDeps) (vi : Nat) :
    ∀ (names : List String) (adj adj2 : List (List Nat)),
      addDeps mad vi names adj = some adj2 →
      ∀ name ∈ names, (moduleMapLookup mad name).isSome = true := by
  intro names
  induction names with
  | nil => intro adj adj2 h name hname; cases hname
  | cons name1 rest ih =>
    intro adj adj2 h name hname
    cases h1 : moduleMapLookup mad name1 with
    | none =>
      simp only [addDeps, h1] at h
      exact Option.noConfusion h
    | some dm =>
      cases h2 : vertexMapLookup mad dm with
      | none =>
        simp only [addDeps, h1, h2] at h
        exact Option.noConfusion h
      | some di =>
        simp only [addDeps, h1, h2] at h
        rcases List.mem_cons.mp hname with hm | hm
        · rw [hm, h1]; rfl
        · exact ih _ _ h name hm

lemma addDeps_isSome (mad : ModDeps) (vi : Nat) :
    ∀ (names : List String) (adj : List (List Nat)),
      (∀ name ∈ names, name ∈ mad.map fun q => q.1.name) →
      ∃ adj2, addDeps mad vi names adj = some adj2 := by
  intro names
  induction names with
  | nil => intro adj _; exact ⟨adj, rfl⟩
  | cons name1 rest ih =>
    intro adj hres
    have h1 : (moduleMapLookup mad name1).isSome = true :=
      (moduleMapLookup_isSome_iff mad name1).mpr
        (hres name1 (List.mem_cons_self _ _))
    obtain ⟨dm, hdm⟩ := Option.isSome_iff_exists.mp h1
    have h2 : (vertexMapLookup mad dm).isSome = true :=
      vertexMapLookup_isSome mad dm (moduleMapLookup_mem_fst mad name1 dm hdm)
    obtain ⟨di, hdi⟩ := Option.isSome_iff_exists.mp h2
    obtain ⟨adj2, hadj2⟩ := ih (adj.set di (adj.getD di [] ++ [vi]))
      (fun name hn => hres name (List.mem_cons_of_mem _ hn))
    exact ⟨adj2, by simp only [addDeps, hdm, hdi]; exact hadj2⟩

lemma addAllDeps_length (mad : ModDeps) :
    ∀ (entries : List (Module × List String)) (adj adj2 : List (List Nat)),
      addAllDeps mad entries adj = some adj2 → adj2.length = adj.length := by
  intro entries
  induction entries with
  | nil =>
    intro adj adj2 h
    rw [addAllDeps, Option.some.injEq] at h
    rw [← h]
  | cons p rest ih =>
    intro adj adj2 h
    obtain ⟨m, names⟩ := p
    cases h1 : vertexMapLookup mad m with
    | none =>
      simp only [addAllDeps, h1] at h
      exact Option.noConfusion h
    | some vi =>
      cases h2 : addDeps mad vi names adj with
      | none =>
        simp only [addAllDeps, h1, h2] at h
        exact Option.noConfusion h
      | some adjmid =>
        simp only [addAllDeps, h1, h2] at h
        rw [ih _ _ h, addDeps_length mad vi names adj adjmid h2]

lemma addAllDeps_mono (mad : ModDeps) :
    ∀ (entries : List (Module × List String)) (adj adj2 : List (List Nat)),
      addAllDeps mad entries adj = some adj2 →
      ∀ i x : Nat, x ∈ adj.getD i [] → x ∈ adj2.getD i [] := by
  intro entries
  induction entries with
  | nil =>
    intro adj adj2 h i x hx
    rw [addAllDeps, Option.some.injEq] at h
    rw [← h]
    exact hx
  | cons p rest ih =>
    intro adj adj2 h i x hx
    obtain ⟨m, names⟩ := p
    cases h1 : vertexMapLookup mad m with
    | none =>
      simp only [addAllDeps, h1] at h
      exact Option.noConfusion h
    | some vi =>
      cases h2 : addDeps mad vi names adj with
      | none =>
        simp only [addAllDeps, h1, h2] at h
        exact Option.noConfusion h
      | some adjmid =>
        simp only [addAllDeps, h1, h2] at h
        exact ih _ _ h i x (addDeps_mono mad vi names adj adjmid h2 i x hx)

lemma addAllDeps_wf (mad : ModDeps) :
    ∀ (entries : List (Module × List String)) (adj adj2 : List (List Nat)),
      addAllDeps mad entries adj = some adj2 →
      (∀ i j : Nat, j ∈ adj.getD i [] → j < mad.length) →
      ∀ i j : Nat, j ∈ adj2.getD i [] → j < mad.length := by
  intro entries
  induction entries with
  | nil =>
    intro adj adj2 h hadj i j hj
    rw [addAllDeps, Option.some.injEq] at h
    rw [← h] at hj
    exact hadj i j hj
  | cons p rest ih =>
    intro adj adj2 h hadj i j hj
    obtain ⟨m, names⟩ := p
    cases h1 : vertexMapLookup mad m with
    | none =>
      simp only [addAllDeps, h1] at h
      exact Option.noConfusion h
    | some vi =>
      cases h2 : addDeps mad vi names adj with
      | none =>
        simp only [addAllDeps, h1, h2] at h
        exact Option.noConfusion h
      | some adjmid =>
        simp only [addAllDeps, h1, h2] at h
        refine ih _ _ h ?_ i j hj
        exact addDeps_wf mad vi (vertexMapLookup_lt mad m vi h1) names adj
          adjmid h2 hadj

lemma addAllDeps_mem (mad : ModDeps) :
    ∀ (entries : List (Module × List String)) (adj adj2 : List (List Nat))
      (mj : Module) (depsj : List String) (name : String) (dm : Module)
      (di vj : Nat),
      addAllDeps mad entries adj = some adj2 → (mj, depsj) ∈ entries →
      name ∈ depsj → moduleMapLookup mad name = some dm →
      vertexMapLookup mad dm = some di → vertexMapLookup mad mj = some vj →
      di < adj.length → vj ∈ adj2.getD di [] := by
  intro entries
  induction entries with
  | nil => intro _ _ _ _ _ _ _ _ _ hmem; cases hmem
  | cons p rest ih =>
    intro adj adj2 mj depsj name dm di vj h hmem hname hdm hdi hvj hlen
    obtain ⟨m1, names1⟩ := p
    cases h1 : vertexMapLookup mad m1 with
    | none =>
      simp only [addAllDeps, h1] at h
      exact Option.noConfusion h
    | some vi1 =>
      cases h2 : addDeps mad vi1 names1 adj with
      | none =>
        simp only [addAllDeps, h1, h2] at h
        exact Option.noConfusion h
      | some adjmid =>
        simp only [addAllDeps, h1, h2] at h
        rcases List.mem_cons.mp hmem with hm | hm
        · rw [Prod.mk.injEq] at hm
          rw [← hm.1] at h1
          rw [hvj, Option.some.injEq] at h1
          rw [← hm.2] at h2
          have hmid : vi1 ∈ adjmid.getD di [] :=
            addDeps_mem mad vi1 depsj adj adjmid name dm di h2 hname hdm hdi hlen
          rw [← h1] at hmid
          exact addAllDeps_mono mad rest adjmid adj2 h di vj hmid
        · refine ih adjmid adj2 mj depsj name dm di vj h hm hname hdm hdi hvj ?_
          rw [addDeps_length mad vi1 names1 adj adjmid h2]
          exact hlen

lemma addAllDeps_resolves (mad : ModDeps) :
    ∀ (entries : List (Module × List String)) (adj adj2 : List (List Nat)),
      addAllDeps mad entries adj = some adj2 →
      ∀ p ∈ entries, ∀ name ∈ p.2, (moduleMapLookup mad name).isSome = true := by
  intro entries
  induction entries with
  | nil => intro _ _ _ p hp; cases hp
  | cons q rest ih =>
    intro adj adj2 h p hp name hname
    obtain ⟨m1, names1⟩ := q
    cases h1 : vertexMapLookup mad m1 with
    | none =>
      simp only [addAllDeps, h1] at h
      exact Option.noConfusion h
    | some vi =>
      cases h2 : addDeps mad vi names1 adj with
      | none =>
        simp only [addAllDeps, h1, h2] at h
        exact Option.noConfusion h
      | some adjmid =>
        simp only [addAllDeps, h1, h2] at h
        rcases List.mem_cons.mp hp with hm | hm
        · rw [hm] at hname
          exact addDeps_resolves mad vi names1 adj adjmid h2 name hname
        · exact ih _ _ h p hm name hname

lemma addAllDeps_isSome (mad : ModDeps) :
    ∀ (entries : List (Module × List String)) (adj : List (List Nat)),
      (∀ p ∈ entries, p.1 ∈ mad.map Prod.fst) →
      (∀ p ∈ entries, ∀ name ∈ p.2, name ∈ mad.map fun q => q.1.name) →
      ∃ adj2, addAllDeps mad entries adj = some adj2 := by
  intro entries
  induction entries with
  | nil => intro adj _ _; exact ⟨adj, rfl⟩
  | cons p rest ih =>
    intro adj hmods hres
    obtain ⟨m1, names1⟩ := p
    have h1 : (vertexMapLookup mad m1).isSome = true :=
      vertexMapLookup_isSome mad m1 (hmods (m1, names1) (List.mem_cons_self _ _))
    obtain ⟨vi, hvi⟩ := Option.isSome_iff_exists.mp h1
    obtain ⟨adjmid, hmid⟩ := addDeps_isSome mad vi names1 adj
      (fun name hn => hres (m1, names1) (List.mem_cons_self _ _) name hn)
    obtain ⟨adj2, hadj2⟩ := ih adjmid
      (fun p hp => hmods p (List.mem_cons_of_mem _ hp))
      (fun p hp name hn => hres p (List.mem_cons_of_mem _ hp) name hn)
    exact ⟨adj2, by simp only [addAllDeps, hvi, hmid]; exact hadj2⟩

lemma createGraph_length (mad : ModDeps) (adj : List (List Nat))
    (h : createGraph mad = some adj) : adj.length = mad.length := by
  rw [createGraph] at h
  rw [addAllDeps_length mad mad _ adj h, List.length_map]

lemma createGraph_wf (mad : ModDeps) (adj : List (List Nat))
    (h : createGraph mad = some adj) :
    ∀ i j : Nat, j ∈ adj.getD i [] → j < mad.length := by
  rw [createGraph] at h
  refine addAllDeps_wf mad mad _ adj h ?_
  intro i j hj
  rw [getD_map_nil] at hj
  cases hj

lemma createGraph_resolves (mad : ModDeps) (adj : List (List Nat))
    (h : createGraph mad = some adj) :
    ∀ p ∈ mad, ∀ name ∈ p.2, name ∈ mad.map fun q => q.1.name := by
  intro p hp name hname
  rw [createGraph] at h
  have := addAllDeps_resolves mad mad _ adj h p hp name hname
  rw [moduleMapLookup_isSome_iff] at this
  exact this

lemma createGraph_isSome (mad : ModDeps)
    (hres : ∀ p ∈ mad, ∀ name ∈ p.2, name ∈ mad.map fun q => q.1.name) :
    ∃ adj, createGraph mad = some adj := by
  exact addAllDeps_isSome mad mad _
    (fun p hp => List.mem_map.mpr ⟨p, hp, rfl⟩) hres

/-- With duplicate-free module names, a registered dependency becomes an
edge from the dependency vertex to the dependent vertex. -/
lemma createGraph_mem (mad : ModDeps) (adj : List (List Nat))
    (hnd : (mad.map fun p => p.1.name).Nodup)
    (h : createGraph mad = some adj) (i j : Nat) (pi pj : Module × List String)
    (hi : mad[i]? = some pi) (hj : mad[j]? = some pj)
    (hdep : pi.1.name ∈ pj.2) : j ∈ adj.getD i [] := by
  rw [createGraph] at h
  have hdm : moduleMapLookup mad pi.1.name = some pi.1 :=
    moduleMapLookup_of_nodup mad hnd i pi hi
  have hdi : vertexMapLookup mad pi.1 = some i :=
    vertexMapLookup_of_nodup mad hnd i pi hi
  have hvj : vertexMapLookup mad pj.1 = some j :=
    vertexMapLookup_of_nodup mad hnd j pj hj
  have hilen : i < mad.length := (List.getElem?_eq_some_iff.mp hi).1
  refine addAllDeps_mem mad mad _ adj pj.1 pj.2 pi.1.name pi.1 i j h ?_ hdep
    hdm hdi hvj ?_
  · have := List.getElem?_mem hj
    simpa using this
  · rw [List.length_map]
    exact hilen

/-! ### Sort-level lemmas -/

lemma sort_none_of_createGraph_none (mad : ModDeps)
    (h : createGraph mad = none) : sort mad = none := by
  rw [sort, h]

lemma sort_cg_some (mad : ModDeps) (adj : List (List Nat))
    (h : createGraph mad = some adj) :
    sort mad = match sortIdx adj with
      | none => none
      | some out => some (out.map fun i => (mad.getD i defaultEntry).1) := by
  rw [sort, h]

lemma sort_none_of_sortIdx_none (mad : ModDeps) (adj : List (List Nat))
    (hcg : createGraph mad = some adj) (h : sortIdx adj = none) :
    sort mad = none := by
  rw [sort_cg_some mad adj hcg, h]

lemma sort_eq_of_sortIdx_some (mad : ModDeps) (adj : List (List Nat))
    (out : List Nat) (hcg : createGraph mad = some adj)
    (h : sortIdx adj = some out) :
    sort mad = some (out.map fun i => (mad.getD i defaultEntry).1) := by
  rw [sort_cg_some mad adj hcg, h]

lemma sort_eq_some_elim (mad : ModDeps) (order : List Module)
    (hs : sort mad = some order) :
    ∃ (adj : List (List Nat)) (out : List Nat),
      createGraph mad = some adj ∧ sortIdx adj = some out ∧
      order = out.map fun i => (mad.getD i defaultEntry).1 := by
  cases hcg : createGraph mad with
  | none =>
    rw [sort_none_of_createGraph_none mad hcg] at hs
    exact Option.noConfusion hs
  | some adj =>
    cases hsi : sortIdx adj with
    | none =>
      rw [sort_none_of_sortIdx_none mad adj hcg hsi] at hs
      exact Option.noConfusion hs
    | some out =>
      rw [sort_eq_of_sortIdx_some mad adj out hcg hsi, Option.some.injEq] at hs
      exact ⟨adj, out, rfl, hsi, hs.symm⟩

lemma createGraph_wf_self (mad : ModDeps) (adj : List (List Nat))
    (h : createGraph mad = some adj) :
    ∀ i j : Nat, j ∈ adj.getD i [] → j < adj.length := by
  intro i j hj
  rw [createGraph_length mad adj h]
  exact createGraph_wf mad adj h i j hj

lemma createGraph_none_of_unresolved (mad : ModDeps)
    (p : Module × List String) (name : String) (hp : p ∈ mad)
    (hname : name ∈ p.2) (hmiss : name ∉ mad.map fun q => q.1.name) :
    createGraph mad = none := by
  cases h : createGraph mad with
  | none => rfl
  | some adj =>
    exact absurd (createGraph_resolves mad adj h p hp name hname) hmiss

lemma sort_none_of_cycle (mad : ModDeps) (adj : List (List Nat))
    (hcg : createGraph mad = some adj) (hcyc : hasCycleB adj = true) :
    sort mad = none := by
  cases hsi : sortIdx adj with
  | none => exact sort_none_of_sortIdx_none mad adj hcg hsi
  | some out =>
    have := sortIdx_acyclic adj out (createGraph_wf_self mad adj hcg) hsi
    rw [hcyc] at this
    cases this

lemma sort_isSome_of_acyclic (mad : ModDeps) (adj : List (List Nat))
    (hcg : createGraph mad = some adj) (hacyc : hasCycleB adj = false) :
    ∃ order, sort mad = some order := by
  obtain ⟨out, hout⟩ :=
    sortIdx_complete adj (createGraph_wf_self mad adj hcg) hacyc
  exact ⟨out.map fun i => (mad.getD i defaultEntry).1,
    sort_eq_of_sortIdx_some mad adj out hcg hout⟩

/-- Main correctness of `sort` under the registry invariant of unique
module names: the computed order lists every registered module exactly
once and puts every dependency strictly before each module declaring
it. -/
lemma sort_correct (mad : ModDeps) (order : List Module)
    (hnd : (mad.map fun p => p.1.name).Nodup)
    (hs : sort mad = some order) :
    order.Nodup ∧
    (∀ m : Module, m ∈ order ↔ m ∈ mad.map Prod.fst) ∧
    (∀ m ∈ mad.map Prod.fst, order.count m = 1) ∧
    ∀ (i j : Nat) (pi pj : Module × List String),
      mad[i]? = some pi → mad[j]? = some pj → pi.1.name ∈ pj.2 →
      precedes order pi.1 pj.1 := by
  obtain ⟨adj, out, hcg, hsi, horder⟩ := sort_eq_some_elim mad order hs
  have hwf := createGraph_wf_self mad adj hcg
  have hlen := createGraph_length mad adj hcg
  obtain ⟨hnodup, hmem, htopo⟩ := sortIdx_sound adj out hwf hsi
  have hf : ∀ (i : Nat) (p : Module × List String), mad[i]? = some p →
      (mad.getD i defaultEntry).1 = p.1 := by
    intro i p hp
    rw [List.getD_eq_getElem?_getD, hp]
    rfl
  have hinj : ∀ i ∈ out, ∀ i2 ∈ out,
      (mad.getD i defaultEntry).1 = (mad.getD i2 defaultEntry).1 → i = i2 := by
    intro i hi i2 hi2 he
    have hilt : i < mad.length := by rw [← hlen]; exact (hmem i).mp hi
    have hi2lt : i2 < mad.length := by rw [← hlen]; exact (hmem i2).mp hi2
    have h1 : (mad.map fun p => p.1.name)[i]? =
        some (mad.getD i defaultEntry).1.name := by
      rw [List.getElem?_map, List.getElem?_eq_getElem hilt]
      rw [List.getD_eq_getElem?_getD, List.getElem?_eq_getElem hilt]
      rfl
    have h2 : (mad.map fun p => p.1.name)[i2]? =
        some (mad.getD i2 defaultEntry).1.name := by
      rw [List.getElem?_map, List.getElem?_eq_getElem hi2lt]
      rw [List.getD_eq_getElem?_getD, List.getElem?_eq_getElem hi2lt]
      rfl
    refine List.getElem?_inj (by rw [List.length_map]; exact hilt) hnd ?_
    rw [h1, h2, he]
  have hordm : ∀ m : Module, m ∈ order ↔ m ∈ mad.map Prod.fst := by
    intro m
    rw [horder]
    constructor
    · intro hm
      obtain ⟨i, hiout, hie⟩ := List.mem_map.mp hm
      have hilt : i < mad.length := by rw [← hlen]; exact (hmem i).mp hiout
      cases hp : mad[i]? with
      | none =>
        rw [List.getElem?_eq_none_iff] at hp
        omega
      | some p =>
        rw [← hie, hf i p hp]
        exact List.mem_map.mpr ⟨p, List.getElem?_mem hp, rfl⟩
    · intro hm
      obtain ⟨p, hp, hpe⟩ := List.mem_map.mp hm
      obtain ⟨i, hi⟩ := List.mem_iff_getElem?.mp hp
      have hilt : i < mad.length := (List.getElem?_eq_some_iff.mp hi).1
      refine List.mem_map.mpr ⟨i, (hmem i).mpr (by rw [hlen]; exact hilt), ?_⟩
      rw [hf i p hi]
      exact hpe
  have hordnd : order.Nodup := by
    rw [horder]
    exact List.Nodup.map_on hinj hnodup
  refine ⟨hordnd, hordm, ?_, ?_⟩
  · intro m hm
    exact List.count_eq_one_of_mem hordnd ((hordm m).mpr hm)
  · intro i j pi pj hi hj hdep
    have hedge : j ∈ adj.getD i [] := createGraph_mem mad adj hnd hcg i j pi pj hi hj hdep
    obtain ⟨p, q, hpq, hp, hq⟩ := htopo i j hedge
    refine ⟨p, q, hpq, ?_, ?_⟩
    · rw [horder, List.getElem?_map, hp, Option.map_some', hf i pi hi]
    · rw [horder, List.getElem?_map, hq, Option.map_some', hf j pj hj]

/-! ### Kernel-operation equation lemmas -/

lemma start_eq_of_sort_none (k : KernelState)
    (h : sort k.modulesAndDependencies = none) :
    start k = ({ k with status := Status.IDLE }, false) := by
  rw [start, h]

lemma start_eq_of_sort_some (k : KernelState) (order : List Module)
    (h : sort k.modulesAndDependencies = some order) :
    start k = ({ k with
        status := Status.RUNNING,
        events := k.events ++ order.map Event.init }, true) := by
  rw [start, h]

lemma remove_not_idle (k : KernelState) (name : String)
    (h : k.status ≠ Status.IDLE) : remove k name = (k, none) := by
  rw [remove, if_pos h]

lemma remove_not_found (k : KernelState) (name : String)
    (hidle : ¬k.status ≠ Status.IDLE)
    (hfi : findRemoveIdx name k.modules = none) : remove k name = (k, none) := by
  rw [remove, if_neg hidle, hfi]

lemma remove_found (k : KernelState) (name : String) (i : Nat)
    (hidle : ¬k.status ≠ Status.IDLE)
    (hfi : findRemoveIdx name k.modules = some i) :
    remove k name =
      ({ k with
          modules := swapRemove k.modules i defaultModule,
          modulesAndDependencies :=
            if (k.modulesAndDependencies.getD i defaultEntry).1.name == name then
              swapRemove k.modulesAndDependencies i defaultEntry
            else k.modulesAndDependencies },
        some (k.modules.getD i defaultModule)) := by
  rw [remove, if_neg hidle, hfi]

/-! ### Claim theorems (with their witnesses) -/

/-- C2: when the dependency graph of the registry contains a cycle,
start() returns false, the status reverts to Idle, and no hook call (in
particular no init) is recorded. -/
theorem C2_cycle_rejection (k : KernelState) (adj : List (List Nat))
    (hcg : createGraph k.modulesAndDependencies = some adj)
    (hcyc : hasCycleB adj = true) :
    (start k).2 = false ∧ (start k).1.status = Status.IDLE ∧
    (start k).1.events = k.events := by
  have hsort := sort_none_of_cycle k.modulesAndDependencies adj hcg hcyc
  rw [start_eq_of_sort_none k hsort]
  exact ⟨rfl, rfl, rfl⟩

theorem C2_cycle_rejection_witness :
    (start ⟨Status.IDLE, [⟨1, "A"⟩, ⟨2, "B"⟩],
      [(⟨1, "A"⟩, ["B"]), (⟨2, "B"⟩, ["A"])], []⟩).2 = false ∧
    (start ⟨Status.IDLE, [⟨1, "A"⟩, ⟨2, "B"⟩],
      [(⟨1, "A"⟩, ["B"]), (⟨2, "B"⟩, ["A"])], []⟩).1.status = Status.IDLE ∧
    (start ⟨Status.IDLE, [⟨1, "A"⟩, ⟨2, "B"⟩],
      [(⟨1, "A"⟩, ["B"]), (⟨2, "B"⟩, ["A"])], []⟩).1.events = [] :=
  C2_cycle_rejection
    ⟨Status.IDLE, [⟨1, "A"⟩, ⟨2, "B"⟩], [(⟨1, "A"⟩, ["B"]), (⟨2, "B"⟩, ["A"])], []⟩
    [[1], [0]] (by decide) (by decide)

/-- C5: a module declaring a dependency name that no registered module
carries makes start() return false with status Idle and no init
recorded. -/
theorem C5_unknown_dependency (k : KernelState) (p : Module × List String)
    (name : String) (hp : p ∈ k.modulesAndDependencies) (hname : name ∈ p.2)
    (hmiss : name ∉ k.modulesAndDependencies.map fun q => q.1.name) :
    (start k).2 = false ∧ (start k).1.status = Status.IDLE ∧
    (start k).1.events = k.events := by
  have hcg := createGraph_none_of_unresolved k.modulesAndDependencies p name
    hp hname hmiss
  have hsort := sort_none_of_createGraph_none _ hcg
  rw [start_eq_of_sort_none k hsort]
  exact ⟨rfl, rfl, rfl⟩

theorem C5_unknown_dependency_witness :
    (start ⟨Status.IDLE, [⟨1, "M1"⟩], [(⟨1, "M1"⟩, ["M2"])], []⟩).2 = false ∧
    (start ⟨Status.IDLE, [⟨1, "M1"⟩], [(⟨1, "M1"⟩, ["M2"])], []⟩).1.status
      = Status.IDLE ∧
    (start ⟨Status.IDLE, [⟨1, "M1"⟩], [(⟨1, "M1"⟩, ["M2"])], []⟩).1.events = [] :=
  C5_unknown_dependency ⟨Status.IDLE, [⟨1, "M1"⟩], [(⟨1, "M1"⟩, ["M2"])], []⟩
    (⟨1, "M1"⟩, ["M2"]) "M2" (by decide) (by decide) (by decide)

/-- C6: while status is not Idle, add returns false and remove returns
the not-found sentinel, and neither call changes the state, so the
Registry is untouched. -/
theorem C6_idle_only_mutation (k : KernelState) (h : k.status ≠ Status.IDLE) :
    (∀ (m : Module) (deps : List String), add k m deps = (k, false)) ∧
    ∀ name : String, remove k name = (k, none) := by
  constructor
  · intro m deps
    rw [add, if_pos h]
  · intro name
    exact remove_not_idle k name h

theorem C6_idle_only_mutation_witness :
    add ⟨Status.RUNNING, [⟨1, "A"⟩], [(⟨1, "A"⟩, [])], []⟩ ⟨2, "B"⟩ []
        = (⟨Status.RUNNING, [⟨1, "A"⟩], [(⟨1, "A"⟩, [])], []⟩, false) ∧
      remove ⟨Status.RUNNING, [⟨1, "A"⟩], [(⟨1, "A"⟩, [])], []⟩ "A"
        = (⟨Status.RUNNING, [⟨1, "A"⟩], [(⟨1, "A"⟩, [])], []⟩, none) :=
  ⟨(C6_idle_only_mutation ⟨Status.RUNNING, [⟨1, "A"⟩], [(⟨1, "A"⟩, [])], []⟩
      (by decide)).1 ⟨2, "B"⟩ [],
    (C6_idle_only_mutation ⟨Status.RUNNING, [⟨1, "A"⟩], [(⟨1, "A"⟩, [])], []⟩
      (by decide)).2 "A"⟩

/-- C7: adding a module whose name is already registered returns false
and leaves the state, hence the existing registration, unchanged. -/
theorem C7_duplicate_name_add (k : KernelState) (m : Module)
    (deps : List String) (h : m.name ∈ k.modules.map Module.name) :
    add k m deps = (k, false) := by
  rw [add]
  by_cases hs : k.status ≠ Status.IDLE
  · rw [if_pos hs]
  · rw [if_neg hs]
    have hfind : (find k m.name).isSome = true := by
      rw [find, List.find?_isSome]
      obtain ⟨m0, hm0, he⟩ := List.mem_map.mp h
      refine ⟨m0, hm0, ?_⟩
      rw [he]
      exact beq_self_eq_true _
    rw [if_pos hfind]

theorem C7_duplicate_name_add_witness :
    add ⟨Status.IDLE, [⟨1, "A"⟩], [(⟨1, "A"⟩, [])], []⟩ ⟨2, "A"⟩ ["X"]
      = (⟨Status.IDLE, [⟨1, "A"⟩], [(⟨1, "A"⟩, [])], []⟩, false) :=
  C7_duplicate_name_add ⟨Status.IDLE, [⟨1, "A"⟩], [(⟨1, "A"⟩, [])], []⟩
    ⟨2, "A"⟩ ["X"] (by decide)

/-- C10: with an empty registry, graph construction and the topological
sort succeed with the empty order, start() returns true, the status
becomes Running, and no hook is called. -/
theorem C10_empty_start (k : KernelState) (h : k.modulesAndDependencies = []) :
    sort k.modulesAndDependencies = some [] ∧ (start k).2 = true ∧
    (start k).1.status = Status.RUNNING ∧ (start k).1.events = k.events := by
  have hsort : sort k.modulesAndDependencies = some [] := by rw [h]; rfl
  rw [start_eq_of_sort_some k [] hsort]
  exact ⟨hsort, rfl, rfl, by simp⟩

theorem C10_empty_start_witness :
    sort ([] : ModDeps) = some [] ∧
    (start ⟨Status.IDLE, [], [], []⟩).2 = true ∧
    (start ⟨Status.IDLE, [], [], []⟩).1.status = Status.RUNNING ∧
    (start ⟨Status.IDLE, [], [], []⟩).1.events = [] :=
  C10_empty_start ⟨Status.IDLE, [], [], []⟩ rfl

/-! ### Event-projection lemmas -/

lemma initsOf_append (l1 l2 : List Event) :
    initsOf (l1 ++ l2) = initsOf l1 ++ initsOf l2 :=
  List.filterMap_append l1 l2 _

lemma haltsOf_append (l1 l2 : List Event) :
    haltsOf (l1 ++ l2) = haltsOf l1 ++ haltsOf l2 :=
  List.filterMap_append l1 l2 _

lemma initsOf_map_init (l : List Module) : initsOf (l.map Event.init) = l := by
  induction l with
  | nil => rfl
  | cons m rest ih =>
    show m :: initsOf (rest.map Event.init) = m :: rest
    rw [ih]

lemma initsOf_map_tick (l : List Module) : initsOf (l.map Event.tick) = [] := by
  induction l with
  | nil => rfl
  | cons m rest ih =>
    show initsOf (rest.map Event.tick) = []
    exact ih

lemma initsOf_map_halt (l : List Module) : initsOf (l.map Event.halt) = [] := by
  induction l with
  | nil => rfl
  | cons m rest ih =>
    show initsOf (rest.map Event.halt) = []
    exact ih

lemma haltsOf_map_init (l : List Module) : haltsOf (l.map Event.init) = [] := by
  induction l with
  | nil => rfl
  | cons m rest ih =>
    show haltsOf (rest.map Event.init) = []
    exact ih

lemma haltsOf_map_tick (l : List Module) : haltsOf (l.map Event.tick) = [] := by
  induction l with
  | nil => rfl
  | cons m rest ih =>
    show haltsOf (rest.map Event.tick) = []
    exact ih

lemma haltsOf_map_halt (l : List Module) : haltsOf (l.map Event.halt) = l := by
  induction l with
  | nil => rfl
  | cons m rest ih =>
    show m :: haltsOf (rest.map Event.halt) = m :: rest
    rw [ih]

lemma initsOf_flatten_replicate (p : Nat) (l : List Event)
    (h : initsOf l = []) : initsOf (List.replicate p l).flatten = [] := by
  induction p with
  | zero => rfl
  | succ pp ih =>
    rw [List.replicate_succ, List.flatten_cons, initsOf_append, h, ih]
    rfl

lemma haltsOf_flatten_replicate (p : Nat) (l : List Event)
    (h : haltsOf l = []) : haltsOf (List.replicate p l).flatten = [] := by
  induction p with
  | zero => rfl
  | succ pp ih =>
    rw [List.replicate_succ, List.flatten_cons, haltsOf_append, h, ih]
    rfl

lemma workerRun_eq_of_sort_some (mad : ModDeps) (order : List Module)
    (passes : Nat) (h : sort mad = some order) :
    workerRun mad passes = order.map Event.init
      ++ (List.replicate passes (order.map Event.tick)).flatten
      ++ order.reverse.map Event.halt := by
  rw [workerRun, h]

/-- C3: if start() returns true, status reports Running and the recorded
init calls are exactly the computed order: one init per registered
module, with every dependency initialized strictly before each module
declaring it. -/
theorem C3_lifecycle_completeness (k : KernelState)
    (hnd : (k.modulesAndDependencies.map fun p => p.1.name).Nodup)
    (hev : k.events = []) (hs : (start k).2 = true) :
    (start k).1.status = Status.RUNNING ∧
    ∃ order, sort k.modulesAndDependencies = some order ∧
      initsOf (start k).1.events = order ∧
      (∀ m ∈ k.modulesAndDependencies.map Prod.fst, order.count m = 1) ∧
      ∀ (i j : Nat) (pi pj : Module × List String),
        k.modulesAndDependencies[i]? = some pi →
        k.modulesAndDependencies[j]? = some pj →
        pi.1.name ∈ pj.2 → precedes order pi.1 pj.1 := by
  cases hsort : sort k.modulesAndDependencies with
  | none =>
    rw [start_eq_of_sort_none k hsort] at hs
    cases hs
  | some order =>
    obtain ⟨_, _, hcount, hprec⟩ := sort_correct _ order hnd hsort
    rw [start_eq_of_sort_some k order hsort]
    refine ⟨rfl, order, rfl, ?_, hcount, hprec⟩
    show initsOf (k.events ++ order.map Event.init) = order
    rw [hev, List.nil_append, initsOf_map_init]

theorem C3_lifecycle_completeness_witness :
    (start ⟨Status.IDLE, [⟨1, "A"⟩, ⟨2, "B"⟩],
        [(⟨1, "A"⟩, []), (⟨2, "B"⟩, ["A"])], []⟩).1.status = Status.RUNNING ∧
    ∃ order, sort [(⟨1, "A"⟩, []), (⟨2, "B"⟩, ["A"])] = some order ∧
      initsOf (start ⟨Status.IDLE, [⟨1, "A"⟩, ⟨2, "B"⟩],
        [(⟨1, "A"⟩, []), (⟨2, "B"⟩, ["A"])], []⟩).1.events = order ∧
      (∀ m ∈ ([(⟨1, "A"⟩, []), (⟨2, "B"⟩, ["A"])] : ModDeps).map Prod.fst,
        order.count m = 1) ∧
      ∀ (i j : Nat) (pi pj : Module × List String),
        ([(⟨1, "A"⟩, []), (⟨2, "B"⟩, ["A"])] : ModDeps)[i]? = some pi →
        ([(⟨1, "A"⟩, []), (⟨2, "B"⟩, ["A"])] : ModDeps)[j]? = some pj →
        pi.1.name ∈ pj.2 → precedes order pi.1 pj.1 :=
  C3_lifecycle_completeness
    ⟨Status.IDLE, [⟨1, "A"⟩, ⟨2, "B"⟩], [(⟨1, "A"⟩, []), (⟨2, "B"⟩, ["A"])], []⟩
    (by decide) rfl (by decide)

/-- C4: over a complete worker run that observed the stop request after
some number of full tick passes, halt is called exactly once per started
module, in exactly the reverse of the init order. -/
theorem C4_reverse_teardown (mad : ModDeps) (order : List Module)
    (passes : Nat) (hnd : (mad.map fun p => p.1.name).Nodup)
    (hsort : sort mad = some order) :
    haltsOf (workerRun mad passes) = (initsOf (workerRun mad passes)).reverse ∧
    ∀ m ∈ order, (haltsOf (workerRun mad passes)).count m = 1 := by
  have hnodup : order.Nodup := (sort_correct mad order hnd hsort).1
  have hi : initsOf (workerRun mad passes) = order := by
    rw [workerRun_eq_of_sort_some mad order passes hsort]
    rw [initsOf_append, initsOf_append, initsOf_map_init,
      initsOf_flatten_replicate passes _ (initsOf_map_tick order),
      initsOf_map_halt]
    simp
  have hh : haltsOf (workerRun mad passes) = order.reverse := by
    rw [workerRun_eq_of_sort_some mad order passes hsort]
    rw [haltsOf_append, haltsOf_append, haltsOf_map_init,
      haltsOf_flatten_replicate passes _ (haltsOf_map_tick order),
      haltsOf_map_halt]
    simp
  constructor
  · rw [hh, hi]
  · intro m hm
    rw [hh, List.count_reverse]
    exact List.count_eq_one_of_mem hnodup hm

theorem C4_reverse_teardown_witness :
    haltsOf (workerRun [(⟨1, "A"⟩, []), (⟨2, "B"⟩, ["A"])] 2)
        = (initsOf (workerRun [(⟨1, "A"⟩, []), (⟨2, "B"⟩, ["A"])] 2)).reverse ∧
      ∀ m ∈ [Module.mk 1 "A", Module.mk 2 "B"],
        (haltsOf (workerRun [(⟨1, "A"⟩, []), (⟨2, "B"⟩, ["A"])] 2)).count m = 1 :=
  C4_reverse_teardown [(⟨1, "A"⟩, []), (⟨2, "B"⟩, ["A"])]
    [Module.mk 1 "A", Module.mk 2 "B"] 2 (by decide) (by decide)

/-! ### Registry-consistency lemmas -/

lemma findRemoveIdx_spec (name : String) :
    ∀ (l : List Module) (i : Nat), findRemoveIdx name l = some i →
      i < l.length ∧ (l.getD i defaultModule).name = name := by
  intro l
  induction l with
  | nil => intro i h; cases h
  | cons m rest ih =>
    intro i h
    rw [findRemoveIdx] at h
    by_cases hm : (m.name == name) = true
    · rw [if_pos hm, Option.some.injEq] at h
      rw [← h]
      exact ⟨by simp, by simpa using hm⟩
    · rw [if_neg hm] at h
      cases hfi : findRemoveIdx name rest with
      | none =>
        rw [hfi] at h
        cases h
      | some i0 =>
        rw [hfi, Option.map_some', Option.some.injEq] at h
        obtain ⟨hlt, hname⟩ := ih i0 hfi
        rw [← h]
        refine ⟨by simp only [List.length_cons]; omega, ?_⟩
        rw [List.getD_cons_succ]
        exact hname

lemma getD_fst_map (mad : ModDeps) (i : Nat) :
    (mad.map Prod.fst).getD i defaultModule = (mad.getD i defaultEntry).1 := by
  rw [List.getD_eq_getElem?_getD, List.getD_eq_getElem?_getD,
    List.getElem?_map]
  cases mad[i]? <;> rfl

lemma getLastD_fst (mad : ModDeps) :
    (mad.map Prod.fst).getLastD defaultModule = (mad.getLastD defaultEntry).1 := by
  rw [List.getLastD_eq_getLast?, List.getLastD_eq_getLast?, List.getLast?_map]
  cases mad.getLast? <;> rfl

lemma map_fst_swapRemove (mad : ModDeps) (i : Nat) :
    (swapRemove mad i defaultEntry).map Prod.fst =
      swapRemove (mad.map Prod.fst) i defaultModule := by
  rw [swapRemove, swapRemove, List.map_dropLast, List.map_set, getLastD_fst]

/-- C9: the parallel registry vectors stay consistent (same length, same
module at every index) across add and remove, and under consistency the
internal-inconsistency branch of remove is unreachable: the entry found
by the scan always carries the searched name. -/
theorem C9_registry_consistency (k : KernelState) (h : Consistent k) :
    (∀ (m : Module) (deps : List String), Consistent (add k m deps).1) ∧
    (∀ name : String, Consistent (remove k name).1) ∧
    ∀ (name : String) (i : Nat), findRemoveIdx name k.modules = some i →
      (k.modulesAndDependencies.getD i defaultEntry).1.name = name := by
  have hco : k.modules = k.modulesAndDependencies.map Prod.fst := h
  have hbranch : ∀ (name : String) (i : Nat),
      findRemoveIdx name k.modules = some i →
      (k.modulesAndDependencies.getD i defaultEntry).1.name = name := by
    intro name i hfi
    obtain ⟨hlt, hname⟩ := findRemoveIdx_spec name k.modules i hfi
    rw [← hname, hco, getD_fst_map]
  refine ⟨?_, ?_, hbranch⟩
  · intro m deps
    rw [add]
    by_cases hs : k.status ≠ Status.IDLE
    · rw [if_pos hs]
      exact h
    · rw [if_neg hs]
      by_cases hf : (find k m.name).isSome = true
      · rw [if_pos hf]
        exact h
      · rw [if_neg hf]
        show k.modules ++ [m]
            = (k.modulesAndDependencies ++ [(m, deps)]).map Prod.fst
        rw [List.map_append, hco]
        rfl
  · intro name
    by_cases hs : k.status ≠ Status.IDLE
    · rw [remove_not_idle k name hs]
      exact h
    · cases hfi : findRemoveIdx name k.modules with
      | none =>
        rw [remove_not_found k name hs hfi]
        exact h
      | some i =>
        rw [remove_found k name i hs hfi]
        have hcond : ((k.modulesAndDependencies.getD i defaultEntry).1.name
            == name) = true := by
          rw [hbranch name i hfi]
          exact beq_self_eq_true _
        rw [if_pos hcond]
        show swapRemove k.modules i defaultModule
            = (swapRemove k.modulesAndDependencies i defaultEntry).map Prod.fst
        rw [map_fst_swapRemove, hco]

theorem C9_registry_consistency_witness :
    (∀ (m : Module) (deps : List String),
      Consistent (add ⟨Status.IDLE, [⟨1, "A"⟩], [(⟨1, "A"⟩, [])], []⟩ m deps).1) ∧
    (∀ name : String,
      Consistent (remove ⟨Status.IDLE, [⟨1, "A"⟩], [(⟨1, "A"⟩, [])], []⟩ name).1) ∧
    ∀ (name : String) (i : Nat),
      findRemoveIdx name [Module.mk 1 "A"] = some i →
      (([(⟨1, "A"⟩, [])] : ModDeps).getD i defaultEntry).1.name = name :=
  C9_registry_consistency ⟨Status.IDLE, [⟨1, "A"⟩], [(⟨1, "A"⟩, [])], []⟩ rfl

/-- C1: for a dependency specification with unique module names whose
declared dependencies all resolve and whose constructed graph is
acyclic, the topological sort succeeds and yields an order containing
every registered module exactly once in which every dependency comes
strictly before every module declaring it. -/
theorem C1_topological_correctness (mad : ModDeps) (adj : List (List Nat))
    (hnd : (mad.map fun p => p.1.name).Nodup)
    (_hres : ∀ p ∈ mad, ∀ name ∈ p.2, name ∈ mad.map fun q => q.1.name)
    (hcg : createGraph mad = some adj) (hacyc : hasCycleB adj = false) :
    ∃ order, sort mad = some order ∧
      (∀ m ∈ mad.map Prod.fst, order.count m = 1) ∧
      ∀ (i j : Nat) (pi pj : Module × List String),
        mad[i]? = some pi → mad[j]? = some pj → pi.1.name ∈ pj.2 →
        precedes order pi.1 pj.1 := by
  obtain ⟨order, horder⟩ := sort_isSome_of_acyclic mad adj hcg hacyc
  obtain ⟨_, _, hcount, hprec⟩ := sort_correct mad order hnd horder
  exact ⟨order, horder, hcount, hprec⟩

theorem C1_topological_correctness_witness :
    ∃ order,
      sort [(⟨1, "A"⟩, []), (⟨2, "B"⟩, ["A"]), (⟨3, "C"⟩, ["A"])] = some order ∧
      (∀ m ∈ ([(⟨1, "A"⟩, []), (⟨2, "B"⟩, ["A"]), (⟨3, "C"⟩, ["A"])] :
          ModDeps).map Prod.fst, order.count m = 1) ∧
      ∀ (i j : Nat) (pi pj : Module × List String),
        ([(⟨1, "A"⟩, []), (⟨2, "B"⟩, ["A"]), (⟨3, "C"⟩, ["A"])] :
          ModDeps)[i]? = some pi →
        ([(⟨1, "A"⟩, []), (⟨2, "B"⟩, ["A"]), (⟨3, "C"⟩, ["A"])] :
          ModDeps)[j]? = some pj →
        pi.1.name ∈ pj.2 → precedes order pi.1 pj.1 :=
  C1_topological_correctness
    [(⟨1, "A"⟩, []), (⟨2, "B"⟩, ["A"]), (⟨3, "C"⟩, ["A"])]
    [[1, 2], [], []] (by decide) (by decide) (by decide) (by decide)

/-! ### Duplicate-dependency lemmas -/

lemma bool_eq_of_iff {b1 b2 : Bool} (h : b1 = true ↔ b2 = true) : b1 = b2 := by
  cases b1 <;> cases b2
  · rfl
  · exact h.mpr rfl
  · exact (h.mp rfl).symm
  · rfl

lemma mem_firstDedupAux {α : Type} [DecidableEq α] (x : α) :
    ∀ l seen : List α, x ∈ firstDedupAux seen l ↔ x ∈ l ∧ x ∉ seen := by
  intro l
  induction l with
  | nil => intro seen; simp [firstDedupAux]
  | cons a rest ih =>
    intro seen
    rw [firstDedupAux]
    by_cases ha : a ∈ seen
    · rw [if_pos ha, ih seen]
      constructor
      · rintro ⟨h1, h2⟩
        exact ⟨List.mem_cons_of_mem a h1, h2⟩
      · rintro ⟨h1, h2⟩
        rcases List.mem_cons.mp h1 with h1 | h1
        · exact absurd (h1 ▸ ha) h2
        · exact ⟨h1, h2⟩
    · rw [if_neg ha, List.mem_cons, ih (a :: seen)]
      constructor
      · rintro (h | ⟨h1, h2⟩)
        · refine ⟨List.mem_cons.mpr (Or.inl h), ?_⟩
          rw [h]
          exact ha
        · refine ⟨List.mem_cons_of_mem a h1, fun hc => h2 (List.mem_cons_of_mem a hc)⟩
      · rintro ⟨h1, h2⟩
        by_cases hxa : x = a
        · exact Or.inl hxa
        · rcases List.mem_cons.mp h1 with h1 | h1
          · exact absurd h1 hxa
          · refine Or.inr ⟨h1, fun hc => ?_⟩
            rcases List.mem_cons.mp hc with hc | hc
            · exact hxa hc
            · exact h2 hc

lemma mem_firstDedup {α : Type} [DecidableEq α] (x : α) (l : List α) :
    x ∈ firstDedup l ↔ x ∈ l := by
  rw [firstDedup, mem_firstDedupAux]
  simp

lemma firstDedupAux_concat {α : Type} [DecidableEq α] (x : α) :
    ∀ l seen : List α, firstDedupAux seen (l ++ [x]) =
      firstDedupAux seen l ++ if x ∈ seen ∨ x ∈ l then [] else [x] := by
  intro l
  induction l with
  | nil =>
    intro seen
    simp only [List.nil_append, firstDedupAux]
    by_cases hx : x ∈ seen
    · rw [if_pos hx, if_pos (Or.inl hx)]
    · rw [if_neg hx, if_neg (by simp [hx])]
  | cons a rest ih =>
    intro seen
    rw [List.cons_append, firstDedupAux, firstDedupAux]
    by_cases ha : a ∈ seen
    · have hcond : (x ∈ seen ∨ x ∈ rest) ↔ (x ∈ seen ∨ x ∈ a :: rest) := by
        constructor
        · rintro (h | h)
          · exact Or.inl h
          · exact Or.inr (List.mem_cons_of_mem a h)
        · rintro (h | h)
          · exact Or.inl h
          · rcases List.mem_cons.mp h with h | h
            · exact Or.inl (h ▸ ha)
            · exact Or.inr h
      rw [if_pos ha, if_pos ha, ih seen, if_congr hcond rfl rfl]
    · have hcond : (x ∈ a :: seen ∨ x ∈ rest) ↔ (x ∈ seen ∨ x ∈ a :: rest) := by
        constructor
        · rintro (h | h)
          · rcases List.mem_cons.mp h with h | h
            · exact Or.inr (List.mem_cons.mpr (Or.inl h))
            · exact Or.inl h
          · exact Or.inr (List.mem_cons_of_mem a h)
        · rintro (h | h)
          · exact Or.inl (List.mem_cons_of_mem a h)
          · rcases List.mem_cons.mp h with h | h
            · exact Or.inl (List.mem_cons.mpr (Or.inl h))
            · exact Or.inr h
      rw [if_neg ha, if_neg ha, ih (a :: seen), List.cons_append,
        if_congr hcond rfl rfl]

lemma firstDedup_concat {α : Type} [DecidableEq α] (l : List α) (x : α) :
    firstDedup (l ++ [x]) = firstDedup l ++ if x ∈ l then [] else [x] := by
  rw [firstDedup, firstDedup, firstDedupAux_concat]
  congr 1
  refine if_congr ?_ rfl rfl
  simp

lemma firstDedup_concat_mem {α : Type} [DecidableEq α] (l : List α) (x : α)
    (h : x ∈ l) : firstDedup (l ++ [x]) = firstDedup l := by
  rw [firstDedup_concat, if_pos h, List.append_nil]

lemma firstDedup_concat_congr {α : Type} [DecidableEq α] (l1 l2 : List α)
    (x : α) (h : firstDedup l1 = firstDedup l2) :
    firstDedup (l1 ++ [x]) = firstDedup (l2 ++ [x]) := by
  rw [firstDedup_concat, firstDedup_concat, h]
  congr 1
  refine if_congr ?_ rfl rfl
  rw [← mem_firstDedup x l1, ← mem_firstDedup x l2, h]

lemma fdEquiv_refl (a : List (List Nat)) : fdEquiv a a := ⟨rfl, fun _ => rfl⟩

lemma fdEquiv_mem {a1 a2 : List (List Nat)} (h : fdEquiv a1 a2) (i x : Nat) :
    x ∈ a1.getD i [] ↔ x ∈ a2.getD i [] := by
  rw [← mem_firstDedup x, h.2 i, mem_firstDedup]

lemma stillReferenced_iff_getD (adj : List (List Nat)) (i : Nat) :
    stillReferenced adj i = true ↔
      ∃ k : Nat, k < adj.length ∧ i ∈ adj.getD k [] := by
  rw [stillReferenced_pos]
  constructor
  · rintro ⟨k, l, hk, hi⟩
    refine ⟨k, (List.getElem?_eq_some_iff.mp hk).1, ?_⟩
    rw [List.getD_eq_getElem?_getD, hk]
    exact hi
  · rintro ⟨k, hk, hi⟩
    cases hkk : adj[k]? with
    | none =>
      rw [List.getElem?_eq_none_iff] at hkk
      omega
    | some l =>
      rw [List.getD_eq_getElem?_getD, hkk] at hi
      exact ⟨k, l, hkk, hi⟩

lemma stillReferenced_congr {a1 a2 : List (List Nat)} (h : fdEquiv a1 a2)
    (m : Nat) : stillReferenced a1 m = stillReferenced a2 m := by
  apply bool_eq_of_iff
  rw [stillReferenced_iff_getD, stillReferenced_iff_getD, h.1]
  constructor
  · rintro ⟨k, hk, hi⟩
    exact ⟨k, hk, (fdEquiv_mem h k m).mp hi⟩
  · rintro ⟨k, hk, hi⟩
    exact ⟨k, hk, (fdEquiv_mem h k m).mpr hi⟩

lemma insertReady_congr_adj {adj1 adj2 : List (List Nat)}
    (h : ∀ m : Nat, stillReferenced adj1 m = stillReferenced adj2 m) :
    ∀ a r : List Nat, insertReady adj1 a r = insertReady adj2 a r := by
  intro a
  induction a with
  | nil => intro r; rfl
  | cons m rest ih =>
    intro r
    simp only [insertReady, h m]
    by_cases hc : (stillReferenced adj2 m || r.contains m) = true
    · rw [if_pos hc, if_pos hc]
      exact ih r
    · rw [if_neg hc, if_neg hc]
      exact ih (r ++ [m])

lemma insertReady_firstDedupAux (adj : List (List Nat)) :
    ∀ a seen r : List Nat,
      (∀ m ∈ seen, stillReferenced adj m = true ∨ m ∈ r) →
      insertReady adj (firstDedupAux seen a) r = insertReady adj a r := by
  intro a
  induction a with
  | nil => intro seen r _; rfl
  | cons m rest ih =>
    intro seen r hseen
    rw [firstDedupAux]
    by_cases hm : m ∈ seen
    · rw [if_pos hm]
      have hskip : (stillReferenced adj m || r.contains m) = true := by
        rcases hseen m hm with h | h
        · rw [h]
          rfl
        · simp [h]
      have hrhs : insertReady adj (m :: rest) r = insertReady adj rest r := by
        simp only [insertReady]
        rw [if_pos hskip]
      rw [hrhs]
      exact ih seen r hseen
    · rw [if_neg hm]
      simp only [insertReady]
      by_cases hc : (stillReferenced adj m || r.contains m) = true
      · rw [if_pos hc, if_pos hc]
        refine ih (m :: seen) r ?_
        intro m2 hm2
        rcases List.mem_cons.mp hm2 with h | h
        · rcases Bool.or_eq_true_iff.mp hc with h2 | h2
          · exact Or.inl (by rw [h]; exact h2)
          · exact Or.inr (by rw [h]; simpa using h2)
        · exact hseen m2 h
      · rw [if_neg hc, if_neg hc]
        refine ih (m :: seen) (r ++ [m]) ?_
        intro m2 hm2
        rcases List.mem_cons.mp hm2 with h | h
        · exact Or.inr (by
            rw [h]
            exact List.mem_append_right _ (List.mem_singleton.mpr rfl))
        · rcases hseen m2 h with h2 | h2
          · exact Or.inl h2
          · exact Or.inr (List.mem_append_left _ h2)

lemma insertReady_firstDedup (adj : List (List Nat)) (a r : List Nat) :
    insertReady adj (firstDedup a) r = insertReady adj a r :=
  insertReady_firstDedupAux adj a [] r (fun m hm => absurd hm (List.not_mem_nil m))

lemma fdEquiv_set_nil {a1 a2 : List (List Nat)} (h : fdEquiv a1 a2) (v : Nat) :
    fdEquiv (a1.set v []) (a2.set v []) := by
  refine ⟨by rw [List.length_set, List.length_set, h.1], ?_⟩
  intro i
  by_cases hvi : v = i
  · rw [← hvi]
    by_cases hlen : v < a1.length
    · rw [getD_set_self a1 v hlen, getD_set_self a2 v (by rw [← h.1]; exact hlen)]
    · rw [List.set_eq_of_length_le (le_of_not_lt hlen),
        List.set_eq_of_length_le (by rw [← h.1]; exact le_of_not_lt hlen)]
      exact h.2 v
  · rw [getD_set_ne a1 v i hvi, getD_set_ne a2 v i hvi]
    exact h.2 i

lemma initialReady_congr {a1 a2 : List (List Nat)} (h : fdEquiv a1 a2) :
    initialReady a1 = initialReady a2 := by
  rw [initialReady, initialReady, h.1]
  apply List.filter_congr
  intro x _
  rw [stillReferenced_congr h x]

lemma kahnLoop_congr (fuel : Nat) : ∀ (a1 a2 : List (List Nat))
    (ready out : List Nat), fdEquiv a1 a2 →
    fdEquiv (kahnLoop fuel a1 ready out).1 (kahnLoop fuel a2 ready out).1 ∧
    (kahnLoop fuel a1 ready out).2 = (kahnLoop fuel a2 ready out).2 := by
  induction fuel with
  | zero => intro a1 a2 ready out h; exact ⟨h, rfl⟩
  | succ f ih =>
    intro a1 a2 ready out h
    cases ready with
    | nil => exact ⟨h, rfl⟩
    | cons v rest =>
      have hset : fdEquiv (a1.set v []) (a2.set v []) := fdEquiv_set_nil h v
      have hready : insertReady (a1.set v []) (a1.getD v []) rest
          = insertReady (a2.set v []) (a2.getD v []) rest := by
        calc insertReady (a1.set v []) (a1.getD v []) rest
            = insertReady (a1.set v []) (firstDedup (a1.getD v [])) rest :=
              (insertReady_firstDedup _ _ _).symm
          _ = insertReady (a1.set v []) (firstDedup (a2.getD v [])) rest := by
              rw [h.2 v]
          _ = insertReady (a2.set v []) (firstDedup (a2.getD v [])) rest :=
              insertReady_congr_adj (stillReferenced_congr hset) _ _
          _ = insertReady (a2.set v []) (a2.getD v []) rest :=
              insertReady_firstDedup _ _ _
      have hgoal1 : kahnLoop (f + 1) a1 (v :: rest) out
          = kahnLoop f (a1.set v [])
              (insertReady (a2.set v []) (a2.getD v []) rest) (out ++ [v]) := by
        rw [← hready]
        rfl
      have hgoal2 : kahnLoop (f + 1) a2 (v :: rest) out
          = kahnLoop f (a2.set v [])
              (insertReady (a2.set v []) (a2.getD v []) rest) (out ++ [v]) := rfl
      rw [hgoal1, hgoal2]
      exact ih _ _ _ _ hset

lemma all_isEmpty_iff_getD (adj : List (List Nat)) :
    adj.all List.isEmpty = true ↔ ∀ k : Nat, adj.getD k [] = [] := by
  rw [List.all_eq_true]
  constructor
  · intro h k
    by_cases hk : k < adj.length
    · cases hkk : adj[k]? with
      | none =>
        rw [List.getElem?_eq_none_iff] at hkk
        omega
      | some l =>
        rw [List.getD_eq_getElem?_getD, hkk]
        exact List.isEmpty_iff.mp (h l (List.getElem?_mem hkk))
    · exact getD_eq_nil_of_le adj k (by omega)
  · intro h l hl
    obtain ⟨k, hk⟩ := List.mem_iff_getElem?.mp hl
    rw [List.isEmpty_iff]
    have h2 := h k
    rw [List.getD_eq_getElem?_getD, hk] at h2
    exact h2

lemma all_isEmpty_congr {a1 a2 : List (List Nat)} (h : fdEquiv a1 a2) :
    a1.all List.isEmpty = a2.all List.isEmpty := by
  apply bool_eq_of_iff
  rw [all_isEmpty_iff_getD, all_isEmpty_iff_getD]
  constructor
  · intro hx k
    rw [List.eq_nil_iff_forall_not_mem]
    intro x hmem
    have := hx k
    rw [List.eq_nil_iff_forall_not_mem] at this
    exact this x ((fdEquiv_mem h k x).mpr hmem)
  · intro hx k
    rw [List.eq_nil_iff_forall_not_mem]
    intro x hmem
    have := hx k
    rw [List.eq_nil_iff_forall_not_mem] at this
    exact this x ((fdEquiv_mem h k x).mp hmem)

lemma sortIdx_congr (a1 a2 : List (List Nat)) (h : fdEquiv a1 a2) :
    sortIdx a1 = sortIdx a2 := by
  have hr0 : initialReady a1 = initialReady a2 := initialReady_congr h
  have hT1 : sortIdxRes a1
      = kahnLoop ((sumLen a1 + (initialReady a1).length)
          + (sumLen a2 + (initialReady a1).length)) a1 (initialReady a1) [] := by
    rw [sortIdxRes]
    exact (kahnLoop_add_fuel _ _ a1 (initialReady a1) [] le_rfl).symm
  have hT2 : sortIdxRes a2
      = kahnLoop ((sumLen a1 + (initialReady a1).length)
          + (sumLen a2 + (initialReady a1).length)) a2 (initialReady a1) [] := by
    rw [sortIdxRes, ← hr0]
    rw [show (sumLen a1 + (initialReady a1).length)
        + (sumLen a2 + (initialReady a1).length)
        = (sumLen a2 + (initialReady a1).length)
          + (sumLen a1 + (initialReady a1).length) from by omega]
    exact (kahnLoop_add_fuel _ _ a2 (initialReady a1) [] le_rfl).symm
  obtain ⟨hadj, hout⟩ := kahnLoop_congr
    ((sumLen a1 + (initialReady a1).length)
      + (sumLen a2 + (initialReady a1).length)) a1 a2 (initialReady a1) [] h
  rw [sortIdx, sortIdx, hT1, hT2, all_isEmpty_congr hadj, hout]

lemma fdEquiv_symm {a b : List (List Nat)} (h : fdEquiv a b) : fdEquiv b a :=
  ⟨h.1.symm, fun i => (h.2 i).symm⟩

lemma fdEquiv_trans {a b c : List (List Nat)} (h1 : fdEquiv a b)
    (h2 : fdEquiv b c) : fdEquiv a c :=
  ⟨h1.1.trans h2.1, fun i => (h1.2 i).trans (h2.2 i)⟩

lemma fdEquiv_set_append_mem (adj : List (List Nat)) (di vi : Nat)
    (h : vi ∈ adj.getD di []) :
    fdEquiv (adj.set di (adj.getD di [] ++ [vi])) adj := by
  refine ⟨List.length_set _ _ _, ?_⟩
  intro i
  by_cases hdi : di = i
  · rw [← hdi]
    by_cases hlen : di < adj.length
    · rw [getD_set_self_val adj di _ hlen, firstDedup_concat_mem _ _ h]
    · rw [List.set_eq_of_length_le (le_of_not_lt hlen)]
  · rw [getD_set_ne_val adj di i _ hdi]

lemma modulePairs_fd (mad : ModDeps) :
    modulePairs (mad.map fun p => (p.1, firstDedup p.2)) = modulePairs mad := by
  induction mad with
  | nil => rfl
  | cons p rest ih =>
    show (p.1.name, p.1) :: modulePairs (rest.map fun q => (q.1, firstDedup q.2))
        = (p.1.name, p.1) :: modulePairs rest
    rw [ih]

lemma vertexPairs_fd (mad : ModDeps) : ∀ s : Nat,
    vertexPairs s (mad.map fun p => (p.1, firstDedup p.2)) = vertexPairs s mad := by
  induction mad with
  | nil => intro s; rfl
  | cons p rest ih =>
    intro s
    show (p.1, s) :: vertexPairs (s + 1) (rest.map fun q => (q.1, firstDedup q.2))
        = (p.1, s) :: vertexPairs (s + 1) rest
    rw [ih (s + 1)]

lemma moduleMapLookup_fd (mad : ModDeps) (name : String) :
    moduleMapLookup (mad.map fun p => (p.1, firstDedup p.2)) name
      = moduleMapLookup mad name := by
  rw [moduleMapLookup, moduleMapLookup, modulePairs_fd]

lemma vertexMapLookup_fd (mad : ModDeps) (m : Module) :
    vertexMapLookup (mad.map fun p => (p.1, firstDedup p.2)) m
      = vertexMapLookup mad m := by
  rw [vertexMapLookup, vertexMapLookup, vertexPairs_fd]

lemma addDeps_base_fd (mad : ModDeps) (vi : Nat) :
    ∀ (names : List String) (adj : List (List Nat)),
      addDeps (mad.map fun p => (p.1, firstDedup p.2)) vi names adj
        = addDeps mad vi names adj := by
  intro names
  induction names with
  | nil => intro adj; rfl
  | cons name rest ih =>
    intro adj
    simp only [addDeps, moduleMapLookup_fd]
    cases moduleMapLookup mad name with
    | none => rfl
    | some dm =>
      simp only [vertexMapLookup_fd]
      cases vertexMapLookup mad dm with
      | none => rfl
      | some di => exact ih _

lemma addAllDeps_base_fd (mad : ModDeps) :
    ∀ (entries : List (Module × List String)) (adj : List (List Nat)),
      addAllDeps (mad.map fun p => (p.1, firstDedup p.2)) entries adj
        = addAllDeps mad entries adj := by
  intro entries
  induction entries with
  | nil => intro adj; rfl
  | cons p rest ih =>
    intro adj
    obtain ⟨m, names⟩ := p
    simp only [addAllDeps, vertexMapLookup_fd]
    cases vertexMapLookup mad m with
    | none => rfl
    | some vi =>
      simp only [addDeps_base_fd]
      cases addDeps mad vi names adj with
      | none => rfl
      | some adj2 => exact ih _

lemma addDeps_fd (mad : ModDeps) (vi : Nat) :
    ∀ (names seen : List String) (adj1 adj2 : List (List Nat)),
      fdEquiv adj1 adj2 → adj2.length = mad.length →
      (∀ name ∈ seen, ∃ (dm : Module) (di : Nat),
        moduleMapLookup mad name = some dm ∧
        vertexMapLookup mad dm = some di ∧ vi ∈ adj2.getD di []) →
      OptFdEquiv (addDeps mad vi (firstDedupAux seen names) adj1)
        (addDeps mad vi names adj2) := by
  intro names
  induction names with
  | nil =>
    intro seen adj1 adj2 heq _ _
    exact Or.inr ⟨adj1, adj2, rfl, rfl, heq⟩
  | cons name rest ih =>
    intro seen adj1 adj2 heq hlen hseen
    rw [firstDedupAux]
    by_cases hm : name ∈ seen
    · rw [if_pos hm]
      obtain ⟨dm, di, hdm, hdi, hvimem⟩ := hseen name hm
      have hstep : addDeps mad vi (name :: rest) adj2
          = addDeps mad vi rest (adj2.set di (adj2.getD di [] ++ [vi])) := by
        simp only [addDeps, hdm, hdi]
      rw [hstep]
      have heq2 : fdEquiv adj1 (adj2.set di (adj2.getD di [] ++ [vi])) :=
        fdEquiv_trans heq
          (fdEquiv_symm (fdEquiv_set_append_mem adj2 di vi hvimem))
      refine ih seen adj1 _ heq2 ?_ ?_
      · rw [List.length_set]
        exact hlen
      · intro n2 hn2
        obtain ⟨dm2, di2, h1, h2, h3⟩ := hseen n2 hn2
        exact ⟨dm2, di2, h1, h2, mem_getD_set_of_mem adj2 di di2 _ vi
          (fun y hy => List.mem_append_left _ hy) h3⟩
    · rw [if_neg hm]
      cases hdm : moduleMapLookup mad name with
      | none =>
        refine Or.inl ⟨?_, ?_⟩ <;> simp only [addDeps, hdm]
      | some dm =>
        cases hdi : vertexMapLookup mad dm with
        | none =>
          refine Or.inl ⟨?_, ?_⟩ <;> simp only [addDeps, hdm, hdi]
        | some di =>
          have hdilen2 : di < adj2.length := by
            rw [hlen]
            exact vertexMapLookup_lt mad dm di hdi
          have hdilen1 : di < adj1.length := by
            rw [heq.1]
            exact hdilen2
          have hl : addDeps mad vi (name :: firstDedupAux (name :: seen) rest) adj1
              = addDeps mad vi (firstDedupAux (name :: seen) rest)
                  (adj1.set di (adj1.getD di [] ++ [vi])) := by
            simp only [addDeps, hdm, hdi]
          have hr : addDeps mad vi (name :: rest) adj2
              = addDeps mad vi rest (adj2.set di (adj2.getD di [] ++ [vi])) := by
            simp only [addDeps, hdm, hdi]
          rw [hl, hr]
          refine ih (name :: seen) _ _ ?_ ?_ ?_
          · refine ⟨by rw [List.length_set, List.length_set, heq.1], ?_⟩
            intro i
            by_cases hdii : di = i
            · rw [← hdii, getD_set_self_val adj1 di _ hdilen1,
                getD_set_self_val adj2 di _ hdilen2]
              exact firstDedup_concat_congr _ _ vi (heq.2 di)
            · rw [getD_set_ne_val adj1 di i _ hdii,
                getD_set_ne_val adj2 di i _ hdii]
              exact heq.2 i
          · rw [List.length_set]
            exact hlen
          · intro n2 hn2
            rcases List.mem_cons.mp hn2 with h | h
            · refine ⟨dm, di, by rw [h]; exact hdm, hdi, ?_⟩
              rw [getD_set_self_val adj2 di _ hdilen2]
              exact List.mem_append_right _ (List.mem_singleton.mpr rfl)
            · obtain ⟨dm2, di2, h1, h2, h3⟩ := hseen n2 h
              exact ⟨dm2, di2, h1, h2, mem_getD_set_of_mem adj2 di di2 _ vi
                (fun y hy => List.mem_append_left _ hy) h3⟩

lemma addAllDeps_fd (mad : ModDeps) :
    ∀ (entries : List (Module × List String)) (adj1 adj2 : List (List Nat)),
      fdEquiv adj1 adj2 → adj2.length = mad.length →
      OptFdEquiv
        (addAllDeps mad (entries.map fun p => (p.1, firstDedup p.2)) adj1)
        (addAllDeps mad entries adj2) := by
  intro entries
  induction entries with
  | nil =>
    intro adj1 adj2 heq _
    exact Or.inr ⟨adj1, adj2, rfl, rfl, heq⟩
  | cons p rest ih =>
    intro adj1 adj2 heq hlen
    obtain ⟨m, names⟩ := p
    cases hvm : vertexMapLookup mad m with
    | none =>
      refine Or.inl ⟨?_, ?_⟩ <;> simp only [List.map_cons, addAllDeps, hvm]
    | some vi =>
      have hvilen : vi < mad.length := vertexMapLookup_lt mad m vi hvm
      rcases addDeps_fd mad vi names [] adj1 adj2 heq hlen
          (fun n hn => absurd hn (List.not_mem_nil n)) with
        ⟨h1, h2⟩ | ⟨b1, b2, h1, h2, heq2⟩
      · have h1b : addDeps mad vi (firstDedup names) adj1 = none := h1
        refine Or.inl ⟨?_, ?_⟩
        · simp only [List.map_cons, addAllDeps, hvm, h1b]
        · simp only [addAllDeps, hvm, h2]
      · have h1b : addDeps mad vi (firstDedup names) adj1 = some b1 := h1
        have hstep1 : addAllDeps mad
            (((m, names) :: rest).map fun p => (p.1, firstDedup p.2)) adj1
            = addAllDeps mad (rest.map fun p => (p.1, firstDedup p.2)) b1 := by
          simp only [List.map_cons, addAllDeps, hvm, h1b]
        have hstep2 : addAllDeps mad ((m, names) :: rest) adj2
            = addAllDeps mad rest b2 := by
          simp only [addAllDeps, hvm, h2]
        rw [hstep1, hstep2]
        refine ih b1 b2 heq2 ?_
        rw [addDeps_length mad vi names adj2 b2 h2]
        exact hlen

lemma createGraph_fd (mad : ModDeps) :
    OptFdEquiv (createGraph (mad.map fun p => (p.1, firstDedup p.2)))
      (createGraph mad) := by
  rw [createGraph, createGraph, addAllDeps_base_fd]
  have hinit : (mad.map fun p => (p.1, firstDedup p.2)).map
      (fun _ => ([] : List Nat)) = mad.map fun _ => ([] : List Nat) := by
    rw [List.map_map]
    exact List.map_congr_left fun a _ => rfl
  rw [hinit]
  refine addAllDeps_fd mad mad _ _ (fdEquiv_refl _) ?_
  rw [List.length_map]

lemma getD_fst_fd (mad : ModDeps) (i : Nat) :
    ((mad.map fun p => (p.1, firstDedup p.2)).getD i defaultEntry).1
      = (mad.getD i defaultEntry).1 := by
  rw [List.getD_eq_getElem?_getD, List.getD_eq_getElem?_getD, List.getElem?_map]
  cases mad[i]? <;> rfl

/-- C8: duplicate names inside dependency lists are semantically a no-op:
replacing every dependency list by its first-occurrence dedup (so each
name occurs once instead of possibly several times) changes neither the
success/failure outcome of the topological sort nor the computed
order. -/
theorem C8_duplicate_deps_noop (mad : ModDeps) :
    sort (mad.map fun p => (p.1, firstDedup p.2)) = sort mad := by
  rcases createGraph_fd mad with ⟨h1, h2⟩ | ⟨a1, a2, h1, h2, heq⟩
  · rw [sort_none_of_createGraph_none _ h1, sort_none_of_createGraph_none _ h2]
  · have hsi : sortIdx a1 = sortIdx a2 := sortIdx_congr a1 a2 heq
    cases hout : sortIdx a2 with
    | none =>
      rw [sort_none_of_sortIdx_none _ a1 h1 (by rw [hsi, hout]),
        sort_none_of_sortIdx_none _ a2 h2 hout]
    | some out =>
      rw [sort_eq_of_sortIdx_some _ a1 out h1 (by rw [hsi, hout]),
        sort_eq_of_sortIdx_some _ a2 out h2 hout]
      congr 1
      apply List.map_congr_left
      intro i _
      exact getD_fst_fd mad i

end Kernel
